import Mathlib

/-!
Voronoi renderer (`src/main.cpp`): shallow embedding and verified properties.

The embedding follows the single source file.

* `size_t` values are natural numbers; unsigned subtraction and the index
  arithmetic of `Matrix` wrap modulo `2^64`.
* `long long` values are integers; `to_long_long` is the two's-complement
  reading of a `size_t`, `llabs` and `ll_add` wrap where C++ leaves the result
  undefined (`llabs(LLONG_MIN)`, signed overflow).
* A `double` that results from converting a `long long` is always an integer;
  `long_to_double` computes it (round to nearest, ties to even, 53 bits).
* `std::hypot` is a parameter of `euclidian_distance`.
* Undefined behaviour that the renderer can reach (dereferencing `end()`,
  indexing the vector out of range) is reported as a `Fault`.
* The contents of a freshly constructed `Matrix<Pixel>` are indeterminate
  (`Pixel() {}` initialises nothing); the constructor takes them as a
  parameter.
* The `omp parallel for` of `render_voronoi` is a sequence of per-cell loop
  bodies; `render_cells` runs them in a given order, `loop_cells` is the order
  of the nested loops.
* The arithmetic of `std::lerp` and of the division by `WIDTH` or `HEIGHT` is
  exact rational arithmetic; the conversion of the result to `int` truncates.
* The state of `rand()` is the sequence of values it returns together with
  the number of calls made; a `color_gen` is a function of `x` and `y`.
-/

namespace Voronoi

/-! ## Machine arithmetic -/

/-- Number of values of a 64-bit `size_t`. -/
def SIZE_MOD : Nat := 2 ^ 64

/-- Unsigned subtraction `a - b` on `size_t`: the difference modulo `2^64`. -/
def size_t_sub (a b : Nat) : Nat :=
  (a % SIZE_MOD + (SIZE_MOD - b % SIZE_MOD)) % SIZE_MOD

/-- Conversion of a `size_t` to `long long` (two's complement). -/
def to_long_long (u : Nat) : Int :=
  if u % SIZE_MOD < 2 ^ 63 then ((u % SIZE_MOD : Nat) : Int)
  else ((u % SIZE_MOD : Nat) : Int) - (2 : Int) ^ 64

/-- Function `std::llabs` on a `long long`. At `LLONG_MIN` the C++ result is
undefined; the wrapped value `LLONG_MIN` is returned there. -/
def llabs (v : Int) : Int :=
  if v = -(2 : Int) ^ 63 then v else if v < 0 then -v else v

/-- Addition of two `long long` values, wrapping on overflow (undefined in
C++). -/
def ll_add (a b : Int) : Int :=
  to_long_long ((a + b) % (2 : Int) ^ 64).toNat

/-- Number of low bits a natural number loses when it is stored with a 53-bit
significand; `fuel` bounds the number of halvings (11 suffice below `2^64`). -/
def dropped_bits : Nat → Nat → Nat
  | 0, _ => 0
  | fuel + 1, m => if m < 2 ^ 53 then 0 else dropped_bits fuel (m / 2) + 1

/-- Rounding of a natural number below `2^64` to the nearest `double`, ties to
even. -/
def round_to_double (m : Nat) : Nat :=
  let e := dropped_bits 11 m
  let q := m / 2 ^ e
  let r := m % 2 ^ e
  let q1 := if 2 ^ e < 2 * r ∨ (2 * r = 2 ^ e ∧ q % 2 = 1) then q + 1 else q
  q1 * 2 ^ e

/-- Conversion of a `long long` to `double`; the value of the resulting
`double` is an integer. -/
def long_to_double (v : Int) : Int :=
  if v < 0 then -((round_to_double (-v).toNat : Nat) : Int)
  else ((round_to_double v.toNat : Nat) : Int)

/-! ## Data model -/

/-- Struct `Pixel`: three `int` channels. -/
structure Pixel where
  red : Int
  green : Int
  blue : Int
  deriving DecidableEq

/-- Struct `Seed`: a position (`size_t x, y`) and a colour. -/
structure Seed where
  x : Nat
  y : Nat
  color : Pixel
  deriving DecidableEq

/-- Struct `Matrix<DataType>`: `width`, `height` and the `data` vector. -/
structure Matrix (α : Type) where
  width : Nat
  height : Nat
  data : List α

/-- Constructor `Matrix(_w, _h)`: a vector of `_w*_h` (a `size_t` product)
elements; `junk k` is the indeterminate content of slot `k`. -/
def Matrix.new {α : Type} (w h : Nat) (junk : Nat → α) : Matrix α :=
  { width := w, height := h, data := (List.range ((w * h) % SIZE_MOD)).map junk }

/-- Index computed by `Matrix::elem`: `y * width + x` in `size_t`. -/
def Matrix.index {α : Type} (m : Matrix α) (x y : Nat) : Nat :=
  (y * m.width + x) % SIZE_MOD

/-- Reading `Matrix::elem(x, y)`; `none` when the index is outside `data`. -/
def Matrix.elem {α : Type} (m : Matrix α) (x y : Nat) : Option α :=
  m.data[m.index x y]?

/-- Things the renderer can do that C++ leaves undefined. -/
inductive Fault where
  | deref_end
  | out_of_range
  deriving DecidableEq

/-- Assignment `elem(x, y) = v`. -/
def Matrix.assign {α : Type} (m : Matrix α) (x y : Nat) (v : α) :
    Except Fault (Matrix α) :=
  if m.index x y < m.data.length then
    .ok { m with data := m.data.set (m.index x y) v }
  else .error .out_of_range

/-- Class invariant of a `Matrix` that was built by its constructor without
overflow of `_w*_h`: the vector has `width * height` slots. -/
def Matrix.WF {α : Type} (m : Matrix α) : Prop :=
  m.data.length = m.width * m.height ∧ m.width * m.height < SIZE_MOD

instance {α : Type} (m : Matrix α) : Decidable m.WF := by
  unfold Matrix.WF; infer_instance

/-! ## Distance metrics -/

/-- Function `manhattan_distance`: `llabs(a.x - b.x) + llabs(a.y - b.y)`,
returned as `double`. -/
def manhattan_distance (a b : Seed) : Int :=
  long_to_double
    (ll_add (llabs (to_long_long (size_t_sub a.x b.x)))
      (llabs (to_long_long (size_t_sub a.y b.y))))

/-- Function `euclidian_distance`: `hypot` of the two `llabs` values, each
converted to `double`. -/
def euclidian_distance {α : Type} (hypot : Int → Int → α) (a b : Seed) : α :=
  hypot (long_to_double (llabs (to_long_long (size_t_sub a.x b.x))))
    (long_to_double (llabs (to_long_long (size_t_sub a.y b.y))))

/-! ## Renderer -/

/-- Loop of `std::min_element` after the first element: `best` is the current
result with its position, `i` the position of the next candidate. -/
def min_element_loop {α : Type} (comp : α → α → Bool) :
    List α → Nat → Nat × α → Nat × α
  | [], _, best => best
  | c :: cs, i, best =>
    min_element_loop comp cs (i + 1) (if comp c best.2 then (i, c) else best)

/-- Function `std::min_element(first, last, comp)`: position and value of the
result, `none` for the past-the-end iterator of an empty range. -/
def min_element {α : Type} (comp : α → α → Bool) : List α → Option (Nat × α)
  | [] => none
  | a :: rest => some (min_element_loop comp rest 1 (0, a))

/-- Struct `Image`. -/
structure Image where
  data : Matrix Pixel

/-- Constructor `Image(_w, _h)`. -/
def Image.new (w h : Nat) (junk : Nat → Pixel) : Image :=
  { data := Matrix.new w h junk }

section Render

variable {α : Type} [LE α] [DecidableRel (fun (p q : α) => p ≤ q)]

/-- The `min_element` call of the loop body for the cell `(x, y)`. -/
def nearest (seeds : List Seed) (d : Seed → Seed → α) (x y : Nat) :
    Option (Nat × Seed) :=
  min_element
    (fun a b => decide (d a (Seed.mk x y (Pixel.mk 0 0 0)) ≤ d b (Seed.mk x y (Pixel.mk 0 0 0))))
    seeds

/-- Body of the inner loop of `render_voronoi` for the cell `(x, y)`. -/
def render_cell (seeds : List Seed) (d : Seed → Seed → α) (img : Image)
    (x y : Nat) : Except Fault Image :=
  match nearest seeds d x y with
  | none => .error .deref_end
  | some best =>
    match img.data.assign x y best.2.color with
    | .error e => .error e
    | .ok m => .ok { data := m }

/-- The cells in the order the two nested loops visit them: `x` outer, `y`
inner. -/
def loop_cells (w h : Nat) : List (Nat × Nat) :=
  (List.range w).flatMap (fun x => (List.range h).map (fun y => (x, y)))

/-- Loop bodies run one after the other over a list of cells. -/
def render_cells (seeds : List Seed) (d : Seed → Seed → α) :
    List (Nat × Nat) → Image → Except Fault Image
  | [], img => .ok img
  | c :: cs, img =>
    match render_cell seeds d img c.1 c.2 with
    | .error e => .error e
    | .ok img1 => render_cells seeds d cs img1

/-- Method `Image::render_voronoi`. -/
def Image.render_voronoi (img : Image) (seeds : List Seed)
    (d : Seed → Seed → α) : Except Fault Image :=
  render_cells seeds d (loop_cells img.data.width img.data.height) img

end Render

/-! ## Writer -/

/-- The `fmt::formatter<Pixel>`: `"{} {} {}"`. -/
def format_pixel (p : Pixel) : String :=
  toString p.red ++ " " ++ toString p.green ++ " " ++ toString p.blue

/-- Text that `Image::write_ppm` sends to the stream. -/
def Image.write_ppm (img : Image) : String :=
  "P3\n" ++ toString img.data.width ++ " " ++ toString img.data.height ++ "\n255\n"
    ++ " ".intercalate (img.data.data.map format_pixel)

/-! ## Colour functions and seed generation -/

/-- Constant `WIDTH`. -/
def WIDTH : Nat := 800

/-- Constant `HEIGHT`. -/
def HEIGHT : Nat := 600

/-- Function `std::lerp(a, b, t)`, with `double` arithmetic read as exact
rational arithmetic: `a + t * (b - a)`. -/
def lerp (a b t : ℚ) : ℚ := a + t * (b - a)

/-- Conversion of a `double` to `int` (the `Pixel` constructor takes `int`s):
truncation toward zero. -/
def double_to_int (q : ℚ) : Int := if 0 ≤ q then ⌊q⌋ else ⌈q⌉

/-- Function `lerp_pixels`. -/
def lerp_pixels (a b : Pixel) (t : ℚ) : Pixel :=
  Pixel.mk (double_to_int (lerp a.red b.red t))
    (double_to_int (lerp a.green b.green t))
    (double_to_int (lerp a.blue b.blue t))

/-- Function `make_cg_horizontal_gradient`; a `color_gen` is a function of
`x` and `y`. -/
def make_cg_horizontal_gradient (begin_color end_color : Pixel) : Nat → Nat → Pixel :=
  fun x _ => lerp_pixels begin_color end_color ((x : ℚ) / (WIDTH : ℚ))

/-- Function `make_cg_vertical_gradient`. -/
def make_cg_vertical_gradient (begin_color end_color : Pixel) : Nat → Nat → Pixel :=
  fun _ y => lerp_pixels begin_color end_color ((y : ℚ) / (HEIGHT : ℚ))

/-- The `std::generate` loop of `gen_random_seeds`: `draws` is the sequence of
values that `rand()` returns, `k` the number of calls made so far, the first
argument the number of seeds still to produce. -/
def generate_seeds (draws : Nat → Nat) (width height : Nat) (cg : Nat → Nat → Pixel) :
    Nat → Nat → List Seed
  | 0, _ => []
  | n + 1, k =>
    Seed.mk (draws k % width) (draws (k + 1) % height)
        (cg (draws k % width) (draws (k + 1) % height))
      :: generate_seeds draws width height cg n (k + 2)

/-- Function `gen_random_seeds`, run when `rand()` has been called `k` times. -/
def gen_random_seeds (draws : Nat → Nat) (k : Nat) (count width height : Nat)
    (cg : Nat → Nat → Pixel) : List Seed :=
  generate_seeds draws width height cg count k

/-! ## Lemmas on the machine arithmetic -/

theorem abs_diff_exact (a b : Nat) (ha : a < 2 ^ 63) (hb : b < 2 ^ 63) :
    llabs (to_long_long (size_t_sub a b)) = |(a : Int) - (b : Int)| := by
  unfold llabs to_long_long size_t_sub SIZE_MOD
  norm_num at ha hb ⊢
  rcases le_total a b with h | h
  · rw [abs_of_nonpos (by omega)]
    split_ifs <;> omega
  · rw [abs_of_nonneg (by omega)]
    split_ifs <;> omega

theorem abs_diff_symm (a b : Nat) :
    llabs (to_long_long (size_t_sub a b)) = llabs (to_long_long (size_t_sub b a)) := by
  unfold llabs to_long_long size_t_sub SIZE_MOD
  norm_num
  split_ifs <;> omega

theorem ll_add_exact (p q : Int) (hp : 0 ≤ p) (hq : 0 ≤ q) (h : p + q < 2 ^ 63) :
    ll_add p q = p + q := by
  unfold ll_add to_long_long SIZE_MOD
  norm_num at h ⊢
  split_ifs <;> omega

theorem pow_dropped_bits_le (fuel m : Nat) (hm : 1 ≤ m) :
    2 ^ dropped_bits fuel m ≤ m := by
  induction fuel generalizing m with
  | zero => simpa [dropped_bits] using hm
  | succ k ih =>
    unfold dropped_bits
    split_ifs with h
    · simpa using hm
    · have h2 : 1 ≤ m / 2 := by
        have : (2 : Nat) ^ 53 = 9007199254740992 := by norm_num
        omega
      have := ih (m / 2) h2
      rw [pow_succ]
      omega

theorem round_to_double_small (m : Nat) (hm : m ≤ 2 ^ 53) : round_to_double m = m := by
  rcases Nat.lt_or_ge m (2 ^ 53) with h | h
  · have he : dropped_bits 11 m = 0 := by
      unfold dropped_bits
      rw [if_pos h]
    simp [round_to_double, he, Nat.mod_one]
  · have : m = 2 ^ 53 := le_antisymm hm h
    subst this
    decide

theorem round_to_double_eq_zero (m : Nat) : round_to_double m = 0 ↔ m = 0 := by
  constructor
  · intro h
    by_contra hne
    have hm : 1 ≤ m := Nat.one_le_iff_ne_zero.mpr hne
    have hle := pow_dropped_bits_le 11 m hm
    have hpos : 0 < 2 ^ dropped_bits 11 m := Nat.pow_pos (by norm_num)
    have hq : 1 ≤ m / 2 ^ dropped_bits 11 m := (Nat.one_le_div_iff hpos).mpr hle
    unfold round_to_double at h
    simp only [Nat.mul_eq_zero] at h
    rcases h with h | h
    · split_ifs at h
      omega
    · omega
  · rintro rfl
    decide

theorem long_to_double_small (v : Int) (h0 : 0 ≤ v) (h1 : v ≤ 2 ^ 53) :
    long_to_double v = v := by
  unfold long_to_double
  rw [if_neg (by omega), round_to_double_small]
  · omega
  · have : ((2 : Nat) ^ 53 : Nat) = 9007199254740992 := by norm_num
    norm_num at h1
    omega

theorem long_to_double_nonneg (v : Int) (h0 : 0 ≤ v) : 0 ≤ long_to_double v := by
  unfold long_to_double
  rw [if_neg (by omega)]
  exact Int.natCast_nonneg _

theorem long_to_double_eq_zero (v : Int) : long_to_double v = 0 ↔ v = 0 := by
  unfold long_to_double
  split_ifs with h
  · rw [neg_eq_zero, Int.natCast_eq_zero, round_to_double_eq_zero]
    omega
  · rw [Int.natCast_eq_zero, round_to_double_eq_zero]
    omega

theorem manhattan_distance_eq (a b : Seed) (hax : a.x < 2 ^ 62) (hay : a.y < 2 ^ 62)
    (hbx : b.x < 2 ^ 62) (hby : b.y < 2 ^ 62) :
    manhattan_distance a b
      = long_to_double (|(a.x : Int) - (b.x : Int)| + |(a.y : Int) - (b.y : Int)|) := by
  have h62 : (2 : Nat) ^ 62 < 2 ^ 63 := by norm_num
  unfold manhattan_distance
  rw [abs_diff_exact a.x b.x (by omega) (by omega),
    abs_diff_exact a.y b.y (by omega) (by omega), ll_add_exact _ _ (abs_nonneg _) (abs_nonneg _)]
  have h1 : |(a.x : Int) - (b.x : Int)| < 2 ^ 62 := by
    rw [abs_lt]; norm_num at hax hbx ⊢; omega
  have h2 : |(a.y : Int) - (b.y : Int)| < 2 ^ 62 := by
    rw [abs_lt]; norm_num at hay hby ⊢; omega
  norm_num at h1 h2 ⊢
  omega

/-! ## Distance metrics: verified properties -/

/-- C6 (as stated, refuted): with `a = (2^53 + 1, 0)` and `b = (0, 0)`, both
inside the claimed domain of coordinates below `2^62`, `manhattan_distance`
returns the `double` `2^53`, not the exact integer `|a.x - b.x| + |a.y - b.y|
= 2^53 + 1`. -/
theorem manhattan_distance_not_exact :
    (9007199254740993 : Nat) < 2 ^ 62 ∧
    manhattan_distance (Seed.mk 9007199254740993 0 (Pixel.mk 0 0 0)) (Seed.mk 0 0 (Pixel.mk 0 0 0))
      = 9007199254740992 ∧
    manhattan_distance (Seed.mk 9007199254740993 0 (Pixel.mk 0 0 0)) (Seed.mk 0 0 (Pixel.mk 0 0 0))
      ≠ |((9007199254740993 : Nat) : Int) - ((0 : Nat) : Int)| + |((0 : Nat) : Int) - ((0 : Nat) : Int)| := by
  refine ⟨by norm_num, by decide, by decide⟩

/-- C6 (amended): for seeds with all coordinates below `2^62`,
`manhattan_distance a b` is the `double` nearest to the exact integer
`|a.x - b.x| + |a.y - b.y|` (the wrapping `size_t` subtraction, `llabs` and
the `long long` addition lose nothing), it equals that integer whenever the
integer is at most `2^53`, and it does not depend on the colours. -/
theorem manhattan_distance_formula (a b : Seed) (hax : a.x < 2 ^ 62) (hay : a.y < 2 ^ 62)
    (hbx : b.x < 2 ^ 62) (hby : b.y < 2 ^ 62) :
    manhattan_distance a b
        = long_to_double (|(a.x : Int) - (b.x : Int)| + |(a.y : Int) - (b.y : Int)|) ∧
    (|(a.x : Int) - (b.x : Int)| + |(a.y : Int) - (b.y : Int)| ≤ 2 ^ 53 →
      manhattan_distance a b = |(a.x : Int) - (b.x : Int)| + |(a.y : Int) - (b.y : Int)|) ∧
    (∀ c1 c2 : Pixel,
      manhattan_distance (Seed.mk a.x a.y c1) (Seed.mk b.x b.y c2) = manhattan_distance a b) := by
  refine ⟨manhattan_distance_eq a b hax hay hbx hby, ?_, fun _ _ => rfl⟩
  intro hle
  rw [manhattan_distance_eq a b hax hay hbx hby]
  exact long_to_double_small _ (add_nonneg (abs_nonneg _) (abs_nonneg _)) hle

/-- Witness for C6: `a = (3, 7)`, `b = (10, 2)`, where `a.x - b.x` wraps. -/
theorem manhattan_distance_formula_witness :
    manhattan_distance (Seed.mk 3 7 (Pixel.mk 1 2 3)) (Seed.mk 10 2 (Pixel.mk 4 5 6)) = 12 ∧
    (∀ c1 c2 : Pixel,
      manhattan_distance (Seed.mk 3 7 c1) (Seed.mk 10 2 c2)
        = manhattan_distance (Seed.mk 3 7 (Pixel.mk 1 2 3)) (Seed.mk 10 2 (Pixel.mk 4 5 6))) :=
  ⟨((manhattan_distance_formula (Seed.mk 3 7 (Pixel.mk 1 2 3)) (Seed.mk 10 2 (Pixel.mk 4 5 6))
      (by norm_num) (by norm_num) (by norm_num) (by norm_num)).2.1 (by norm_num)).trans
      (by norm_num),
    (manhattan_distance_formula (Seed.mk 3 7 (Pixel.mk 1 2 3)) (Seed.mk 10 2 (Pixel.mk 4 5 6))
      (by norm_num) (by norm_num) (by norm_num) (by norm_num)).2.2⟩

/-- C7: both metrics are symmetric, for all seeds and (for the Euclidean one)
whatever function `hypot` is: the two `llabs` values are the same for `(a, b)`
and `(b, a)`. -/
theorem metrics_symmetric (a b : Seed) :
    manhattan_distance a b = manhattan_distance b a ∧
    ∀ (α : Type) (hypot : Int → Int → α),
      euclidian_distance hypot a b = euclidian_distance hypot b a := by
  constructor
  · unfold manhattan_distance
    rw [abs_diff_symm a.x b.x, abs_diff_symm a.y b.y]
  · intro α hypot
    unfold euclidian_distance
    rw [abs_diff_symm a.x b.x, abs_diff_symm a.y b.y]

/-- C8: for seeds with coordinates below `2^62`, `manhattan_distance a b` is
non-negative and is `0` exactly when `a` and `b` have the same position; the
same holds for `euclidian_distance` when `hypot` is the exact real function
`sqrt (p^2 + q^2)`. Colours play no part. -/
theorem distance_zero_iff_same_point (a b : Seed) (hax : a.x < 2 ^ 62) (hay : a.y < 2 ^ 62)
    (hbx : b.x < 2 ^ 62) (hby : b.y < 2 ^ 62) :
    (0 ≤ manhattan_distance a b ∧
      (manhattan_distance a b = 0 ↔ a.x = b.x ∧ a.y = b.y)) ∧
    ∀ hypot : Int → Int → ℝ,
      (∀ p q : Int, hypot p q = Real.sqrt ((p : ℝ) ^ 2 + (q : ℝ) ^ 2)) →
      0 ≤ euclidian_distance hypot a b ∧
        (euclidian_distance hypot a b = 0 ↔ a.x = b.x ∧ a.y = b.y) := by
  have h62 : (2 : Nat) ^ 62 < 2 ^ 63 := by norm_num
  have hx : |(a.x : Int) - (b.x : Int)| = 0 ↔ a.x = b.x := by
    rw [abs_eq_zero]; omega
  have hy : |(a.y : Int) - (b.y : Int)| = 0 ↔ a.y = b.y := by
    rw [abs_eq_zero]; omega
  refine ⟨⟨?_, ?_⟩, ?_⟩
  · rw [manhattan_distance_eq a b hax hay hbx hby]
    exact long_to_double_nonneg _ (add_nonneg (abs_nonneg _) (abs_nonneg _))
  · rw [manhattan_distance_eq a b hax hay hbx hby, long_to_double_eq_zero, ← hx, ← hy]
    have h1 := abs_nonneg ((a.x : Int) - (b.x : Int))
    have h2 := abs_nonneg ((a.y : Int) - (b.y : Int))
    omega
  · intro hypot hhyp
    unfold euclidian_distance
    rw [hhyp, abs_diff_exact a.x b.x (by omega) (by omega),
      abs_diff_exact a.y b.y (by omega) (by omega)]
    refine ⟨Real.sqrt_nonneg _, ?_⟩
    rw [Real.sqrt_eq_zero (by positivity)]
    constructor
    · intro h
      have hp : ((long_to_double |(a.x : Int) - (b.x : Int)| : Int) : ℝ) = 0 := by nlinarith
      have hq : ((long_to_double |(a.y : Int) - (b.y : Int)| : Int) : ℝ) = 0 := by nlinarith
      rw [Int.cast_eq_zero, long_to_double_eq_zero] at hp hq
      exact ⟨hx.mp hp, hy.mp hq⟩
    · rintro ⟨h1, h2⟩
      rw [(long_to_double_eq_zero _).mpr (hx.mpr h1), (long_to_double_eq_zero _).mpr (hy.mpr h2)]
      simp

/-- Witness for C8: seeds at `(4, 9)` and `(6, 1)` with the exact `hypot`. -/
theorem distance_zero_iff_same_point_witness :
    (0 ≤ manhattan_distance (Seed.mk 4 9 (Pixel.mk 1 1 1)) (Seed.mk 6 1 (Pixel.mk 2 2 2)) ∧
      (manhattan_distance (Seed.mk 4 9 (Pixel.mk 1 1 1)) (Seed.mk 6 1 (Pixel.mk 2 2 2)) = 0
        ↔ (4 : Nat) = 6 ∧ (9 : Nat) = 1)) ∧
    0 ≤ euclidian_distance (fun p q : Int => Real.sqrt ((p : ℝ) ^ 2 + (q : ℝ) ^ 2))
        (Seed.mk 4 9 (Pixel.mk 1 1 1)) (Seed.mk 6 1 (Pixel.mk 2 2 2)) ∧
    (euclidian_distance (fun p q : Int => Real.sqrt ((p : ℝ) ^ 2 + (q : ℝ) ^ 2))
        (Seed.mk 4 9 (Pixel.mk 1 1 1)) (Seed.mk 6 1 (Pixel.mk 2 2 2)) = 0
      ↔ (4 : Nat) = 6 ∧ (9 : Nat) = 1) :=
  ⟨(distance_zero_iff_same_point (Seed.mk 4 9 (Pixel.mk 1 1 1)) (Seed.mk 6 1 (Pixel.mk 2 2 2))
      (by norm_num) (by norm_num) (by norm_num) (by norm_num)).1,
   (distance_zero_iff_same_point (Seed.mk 4 9 (Pixel.mk 1 1 1)) (Seed.mk 6 1 (Pixel.mk 2 2 2))
      (by norm_num) (by norm_num) (by norm_num) (by norm_num)).2 _ (fun _ _ => rfl)⟩

/-! ## Lemmas on `min_element` -/

theorem min_element_loop_pos {α : Type} (comp : α → α → Bool) (cs : List α) (k : Nat)
    (best : Nat × α) :
    min_element_loop comp cs k best = best ∨
      ∃ j, cs[j]? = some (min_element_loop comp cs k best).2 ∧
        (min_element_loop comp cs k best).1 = k + j := by
  induction cs generalizing k best with
  | nil => exact Or.inl rfl
  | cons c cs ih =>
    unfold min_element_loop
    rcases ih (k + 1) (if comp c best.2 then (k, c) else best) with h | ⟨j, hj, hk⟩
    · rw [h]
      by_cases hc : comp c best.2 = true
      · right
        exact ⟨0, by simp [hc], by simp [hc]⟩
      · left
        simp [hc]
    · right
      exact ⟨j + 1, by simpa using hj, by omega⟩

theorem min_element_get {α : Type} (comp : α → α → Bool) (xs : List α) (r : Nat × α)
    (h : min_element comp xs = some r) : xs[r.1]? = some r.2 := by
  cases xs with
  | nil => simp [min_element] at h
  | cons a rest =>
    simp only [min_element, Option.some.injEq] at h
    rcases min_element_loop_pos comp rest 1 (0, a) with h1 | ⟨j, hj, hk⟩
    · rw [h] at h1
      rw [h1]
      simp
    · rw [h] at hj hk
      rw [hk, Nat.add_comm 1 j]
      simpa using hj

theorem min_element_mem {α : Type} (comp : α → α → Bool) (xs : List α) (r : Nat × α)
    (h : min_element comp xs = some r) : r.2 ∈ xs :=
  List.getElem?_mem (min_element_get comp xs r h)

theorem min_element_isSome {α : Type} (comp : α → α → Bool) (xs : List α) (hne : xs ≠ []) :
    ∃ r, min_element comp xs = some r := by
  cases xs with
  | nil => exact absurd rfl hne
  | cons a rest => exact ⟨_, rfl⟩

theorem min_element_loop_le {α : Type} (comp : α → α → Bool)
    (htot : ∀ a b, comp a b = true ∨ comp b a = true)
    (htr : ∀ a b c, comp a b = true → comp b c = true → comp a c = true)
    (cs : List α) (k : Nat) (best : Nat × α) :
    comp (min_element_loop comp cs k best).2 best.2 = true ∧
      ∀ t ∈ cs, comp (min_element_loop comp cs k best).2 t = true := by
  induction cs generalizing k best with
  | nil =>
    refine ⟨?_, by simp⟩
    rcases htot best.2 best.2 with h | h <;> exact h
  | cons c cs ih =>
    unfold min_element_loop
    obtain ⟨h1, h2⟩ := ih (k + 1) (if comp c best.2 then (k, c) else best)
    by_cases hc : comp c best.2 = true
    · simp only [hc, if_true] at h1 h2 ⊢
      refine ⟨htr _ _ _ h1 hc, ?_⟩
      intro t ht
      rcases List.mem_cons.mp ht with rfl | ht
      · exact h1
      · exact h2 t ht
    · simp only [hc] at h1 h2 ⊢
      have hbc : comp best.2 c = true := by
        rcases htot best.2 c with h | h
        · exact h
        · exact absurd h hc
      refine ⟨h1, ?_⟩
      intro t ht
      rcases List.mem_cons.mp ht with rfl | ht
      · exact htr _ _ _ h1 hbc
      · exact h2 t ht

theorem min_element_le {α : Type} (comp : α → α → Bool)
    (htot : ∀ a b, comp a b = true ∨ comp b a = true)
    (htr : ∀ a b c, comp a b = true → comp b c = true → comp a c = true)
    (xs : List α) (r : Nat × α) (h : min_element comp xs = some r) :
    ∀ t ∈ xs, comp r.2 t = true := by
  cases xs with
  | nil => simp [min_element] at h
  | cons a rest =>
    simp only [min_element, Option.some.injEq] at h
    obtain ⟨h1, h2⟩ := min_element_loop_le comp htot htr rest 1 (0, a)
    rw [h] at h1 h2
    intro t ht
    rcases List.mem_cons.mp ht with rfl | ht
    · exact h1
    · exact h2 t ht

/-! ## Lemmas on `Matrix` -/

theorem cell_index_lt (w h x y : Nat) (hx : x < w) (hy : y < h) : y * w + x < w * h := by
  calc y * w + x < y * w + w := by omega
    _ = (y + 1) * w := by ring
    _ ≤ h * w := Nat.mul_le_mul_right w hy
    _ = w * h := Nat.mul_comm _ _

theorem cell_index_inj (w x y x1 y1 : Nat) (hx : x < w) (hx1 : x1 < w)
    (h : y * w + x = y1 * w + x1) : x = x1 ∧ y = y1 := by
  have hy : y = y1 := by
    rcases Nat.lt_trichotomy y y1 with hlt | heq | hgt
    · have := Nat.mul_le_mul_right w (Nat.succ_le_of_lt hlt)
      rw [Nat.succ_mul] at this
      omega
    · exact heq
    · have := Nat.mul_le_mul_right w (Nat.succ_le_of_lt hgt)
      rw [Nat.succ_mul] at this
      omega
  subst hy
  exact ⟨by omega, rfl⟩

theorem Matrix.index_eq {α : Type} (m : Matrix α) (hwf : m.WF) (x y : Nat)
    (hx : x < m.width) (hy : y < m.height) :
    m.index x y = y * m.width + x ∧ m.index x y < m.data.length := by
  have h1 := cell_index_lt m.width m.height x y hx hy
  obtain ⟨hlen, hsz⟩ := hwf
  have h2 : m.index x y = y * m.width + x := by
    unfold Matrix.index
    exact Nat.mod_eq_of_lt (lt_trans h1 hsz)
  exact ⟨h2, by rw [h2, hlen]; exact h1⟩

theorem Matrix.assign_ok {α : Type} (m : Matrix α) (hwf : m.WF) (x y : Nat)
    (hx : x < m.width) (hy : y < m.height) (v : α) :
    m.assign x y v = .ok { m with data := m.data.set (m.index x y) v } := by
  unfold Matrix.assign
  rw [if_pos (m.index_eq hwf x y hx hy).2]

theorem Matrix.elem_set {α : Type} (m : Matrix α) (hwf : m.WF) (x y x1 y1 : Nat)
    (hx : x < m.width) (hy : y < m.height) (hx1 : x1 < m.width) (hy1 : y1 < m.height) (v : α) :
    Matrix.elem { m with data := m.data.set (m.index x y) v } x1 y1
      = if (x1, y1) = (x, y) then some v else m.elem x1 y1 := by
  obtain ⟨hi, hlt⟩ := m.index_eq hwf x y hx hy
  obtain ⟨hi1, _⟩ := m.index_eq hwf x1 y1 hx1 hy1
  unfold Matrix.elem
  have hidx : Matrix.index { m with data := m.data.set (m.index x y) v } x1 y1 = m.index x1 y1 := rfl
  rw [hidx]
  show (m.data.set (m.index x y) v)[m.index x1 y1]? = _
  by_cases hc : (x1, y1) = (x, y)
  · rw [if_pos hc]
    obtain ⟨rfl, rfl⟩ := Prod.mk.inj hc
    exact List.getElem?_set_self hlt
  · rw [if_neg hc]
    have hne : m.index x y ≠ m.index x1 y1 := by
      intro he
      rw [hi, hi1] at he
      obtain ⟨h1, h2⟩ := cell_index_inj m.width x y x1 y1 hx hx1 he
      exact hc (by rw [h1, h2])
    exact List.getElem?_set_ne hne

theorem mem_loop_cells (w h x y : Nat) : (x, y) ∈ loop_cells w h ↔ x < w ∧ y < h := by
  unfold loop_cells
  simp only [List.mem_flatMap, List.mem_range, List.mem_map, Prod.mk.injEq]
  constructor
  · rintro ⟨a, ha, b, hb, rfl, rfl⟩
    exact ⟨ha, hb⟩
  · rintro ⟨hx, hy⟩
    exact ⟨x, hx, y, hy, rfl, rfl⟩

/-! ## Lemmas on the render loop -/

section RenderLemmas

variable {α : Type} [LE α] [DecidableRel (fun (p q : α) => p ≤ q)]

theorem render_cell_ok (seeds : List Seed) (d : Seed → Seed → α) (img : Image)
    (hwf : img.data.WF) (x y : Nat) (hx : x < img.data.width) (hy : y < img.data.height)
    (best : Nat × Seed) (hbest : nearest seeds d x y = some best) :
    render_cell seeds d img x y
      = .ok { data := { img.data with
                data := img.data.data.set (img.data.index x y) best.2.color } } := by
  unfold render_cell
  rw [hbest]
  simp only [img.data.assign_ok hwf x y hx hy]

theorem render_cells_spec (seeds : List Seed) (d : Seed → Seed → α) (hne : seeds ≠ [])
    (cs : List (Nat × Nat)) (img : Image) (hwf : img.data.WF)
    (hcs : ∀ c ∈ cs, c.1 < img.data.width ∧ c.2 < img.data.height) :
    ∃ img1, render_cells seeds d cs img = .ok img1 ∧
      img1.data.width = img.data.width ∧ img1.data.height = img.data.height ∧
      img1.data.data.length = img.data.data.length ∧
      ∀ x y, x < img.data.width → y < img.data.height →
        ((x, y) ∈ cs → ∃ best, nearest seeds d x y = some best ∧
          img1.data.elem x y = some best.2.color) ∧
        ((x, y) ∉ cs → img1.data.elem x y = img.data.elem x y) := by
  induction cs generalizing img with
  | nil =>
    exact ⟨img, rfl, rfl, rfl, rfl, fun x y _ _ => ⟨fun h => absurd h (List.not_mem_nil _),
      fun _ => rfl⟩⟩
  | cons c cs ih =>
    obtain ⟨hcx, hcy⟩ := hcs c (List.mem_cons_self _ _)
    obtain ⟨best, hbest⟩ := min_element_isSome
      (fun a b => decide (d a (Seed.mk c.1 c.2 (Pixel.mk 0 0 0))
        ≤ d b (Seed.mk c.1 c.2 (Pixel.mk 0 0 0)))) seeds hne
    have hstep := render_cell_ok seeds d img hwf c.1 c.2 hcx hcy best hbest
    have hwf1 : Matrix.WF { img.data with
        data := img.data.data.set (img.data.index c.1 c.2) best.2.color } := by
      unfold Matrix.WF
      simp only [List.length_set]
      exact hwf
    obtain ⟨img1, hrun, hw, hh, hlen, hcells⟩ := ih _ hwf1
      (fun c1 hc1 => hcs c1 (List.mem_cons_of_mem _ hc1))
    refine ⟨img1, ?_, hw, hh, ?_, ?_⟩
    · simp only [render_cells, hstep]
      exact hrun
    · rw [hlen]
      simp only [List.length_set]
    · intro x y hx hy
      obtain ⟨hin, hout⟩ := hcells x y hx hy
      have hset := img.data.elem_set hwf c.1 c.2 x y hcx hcy hx hy best.2.color
      constructor
      · intro hmem
        by_cases hcs1 : (x, y) ∈ cs
        · exact hin hcs1
        · have hxy : (x, y) = c := by
            rcases List.mem_cons.mp hmem with h | h
            · exact h
            · exact absurd h hcs1
          rw [hout hcs1, hset, if_pos (by rw [hxy])]
          have hx1 : c.1 = x := by rw [← hxy]
          have hy1 : c.2 = y := by rw [← hxy]
          rw [hx1, hy1] at hbest
          exact ⟨best, hbest, rfl⟩
      · intro hmem
        have hcs1 : (x, y) ∉ cs := fun h => hmem (List.mem_cons_of_mem _ h)
        have hxy : (x, y) ≠ (c.1, c.2) := fun h => hmem (by rw [h]; exact List.mem_cons_self _ _)
        rw [hout hcs1, hset, if_neg hxy]

theorem render_voronoi_spec (seeds : List Seed) (d : Seed → Seed → α) (hne : seeds ≠ [])
    (img : Image) (hwf : img.data.WF) :
    ∃ img1, img.render_voronoi seeds d = .ok img1 ∧
      img1.data.width = img.data.width ∧ img1.data.height = img.data.height ∧
      img1.data.data.length = img.data.data.length ∧
      ∀ x y, x < img.data.width → y < img.data.height →
        ∃ best, nearest seeds d x y = some best ∧ img1.data.elem x y = some best.2.color := by
  obtain ⟨img1, hrun, hw, hh, hlen, hcells⟩ := render_cells_spec seeds d hne
    (loop_cells img.data.width img.data.height) img hwf
    (fun c hc => (mem_loop_cells _ _ c.1 c.2).mp hc)
  exact ⟨img1, hrun, hw, hh, hlen, fun x y hx hy =>
    (hcells x y hx hy).1 ((mem_loop_cells _ _ x y).mpr ⟨hx, hy⟩)⟩

end RenderLemmas

theorem loop_cells_eq_nil (w h : Nat) (hz : w = 0 ∨ h = 0) : loop_cells w h = [] := by
  apply List.eq_nil_iff_forall_not_mem.mpr
  rintro ⟨x, y⟩ hmem
  have := (mem_loop_cells w h x y).mp hmem
  omega

/-! ## Renderer: verified properties -/

/-- C1: nearest-seed rule. For a non-empty seed list, a distance function with
totally ordered values and a grid with `width * height` slots,
`render_voronoi` returns, keeps the dimensions, and every cell `(x, y)` of the
grid holds the colour of a seed `s` of the list whose distance to the cell
`Seed(x, y, Pixel(0,0,0))` is at most that of every seed of the list. -/
theorem render_voronoi_nearest_seed {α : Type} [LinearOrder α] (seeds : List Seed)
    (d : Seed → Seed → α) (hne : seeds ≠ []) (img : Image) (hwf : img.data.WF) :
    ∃ img1, img.render_voronoi seeds d = .ok img1 ∧
      img1.data.width = img.data.width ∧ img1.data.height = img.data.height ∧
      ∀ x y, x < img.data.width → y < img.data.height →
        ∃ s ∈ seeds, img1.data.elem x y = some s.color ∧
          ∀ t ∈ seeds, d s (Seed.mk x y (Pixel.mk 0 0 0)) ≤ d t (Seed.mk x y (Pixel.mk 0 0 0)) := by
  obtain ⟨img1, hrun, hw, hh, _, hcells⟩ := render_voronoi_spec seeds d hne img hwf
  refine ⟨img1, hrun, hw, hh, ?_⟩
  intro x y hx hy
  obtain ⟨best, hbest, hcol⟩ := hcells x y hx hy
  refine ⟨best.2, min_element_mem _ _ _ hbest, hcol, ?_⟩
  intro t ht
  have := min_element_le
    (fun a b => decide (d a (Seed.mk x y (Pixel.mk 0 0 0)) ≤ d b (Seed.mk x y (Pixel.mk 0 0 0))))
    (fun a b => by
      rcases le_total (d a (Seed.mk x y (Pixel.mk 0 0 0))) (d b (Seed.mk x y (Pixel.mk 0 0 0)))
        with h | h
      · exact Or.inl (decide_eq_true h)
      · exact Or.inr (decide_eq_true h))
    (fun a b c hab hbc => decide_eq_true (le_trans (of_decide_eq_true hab) (of_decide_eq_true hbc)))
    seeds best hbest t ht
  exact of_decide_eq_true this

/-- Witness for C1: two seeds on a 3x2 grid under the Manhattan metric. -/
theorem render_voronoi_nearest_seed_witness :
    ∃ img1, (Image.new 3 2 (fun _ => Pixel.mk 9 9 9)).render_voronoi
        [Seed.mk 0 0 (Pixel.mk 255 0 0), Seed.mk 2 1 (Pixel.mk 0 0 255)] manhattan_distance
        = .ok img1 ∧
      img1.data.width = 3 ∧ img1.data.height = 2 ∧
      ∀ x y, x < 3 → y < 2 →
        ∃ s ∈ [Seed.mk 0 0 (Pixel.mk 255 0 0), Seed.mk 2 1 (Pixel.mk 0 0 255)],
          img1.data.elem x y = some s.color ∧
          ∀ t ∈ [Seed.mk 0 0 (Pixel.mk 255 0 0), Seed.mk 2 1 (Pixel.mk 0 0 255)],
            manhattan_distance s (Seed.mk x y (Pixel.mk 0 0 0))
              ≤ manhattan_distance t (Seed.mk x y (Pixel.mk 0 0 0)) :=
  render_voronoi_nearest_seed [Seed.mk 0 0 (Pixel.mk 255 0 0), Seed.mk 2 1 (Pixel.mk 0 0 255)]
    manhattan_distance (by simp) (Image.new 3 2 (fun _ => Pixel.mk 9 9 9)) (by decide)

/-- C2 (evaluation at the failing input): seeds `[(0,0) red, (2,0) blue]`,
Manhattan metric, 3x1 grid. Both seeds are at distance 1 from the cell
`(1, 0)`, and `render_voronoi` stores the colour of the second seed (blue)
there, not that of the first. -/
theorem render_voronoi_tie_takes_last :
    manhattan_distance (Seed.mk 0 0 (Pixel.mk 255 0 0)) (Seed.mk 1 0 (Pixel.mk 0 0 0)) = 1 ∧
    manhattan_distance (Seed.mk 2 0 (Pixel.mk 0 0 255)) (Seed.mk 1 0 (Pixel.mk 0 0 0)) = 1 ∧
    ∃ img1, (Image.new 3 1 (fun _ => Pixel.mk 0 0 0)).render_voronoi
        [Seed.mk 0 0 (Pixel.mk 255 0 0), Seed.mk 2 0 (Pixel.mk 0 0 255)] manhattan_distance
        = .ok img1 ∧
      img1.data.elem 1 0 = some (Pixel.mk 0 0 255) ∧
      img1.data.elem 1 0 ≠ some (Pixel.mk 255 0 0) :=
  ⟨by decide, by decide, _, rfl, by decide, by decide⟩

/-- C3: no fabricated colour. For a non-empty seed list, any distance function
(whatever its comparison) and a grid with `width * height` slots,
`render_voronoi` returns and every cell holds the colour of some seed of the
list. -/
theorem render_voronoi_color_of_seed {α : Type} [LE α]
    [DecidableRel (fun (p q : α) => p ≤ q)] (seeds : List Seed)
    (d : Seed → Seed → α) (hne : seeds ≠ []) (img : Image) (hwf : img.data.WF) :
    ∃ img1, img.render_voronoi seeds d = .ok img1 ∧
      ∀ x y, x < img.data.width → y < img.data.height →
        ∃ s ∈ seeds, img1.data.elem x y = some s.color := by
  obtain ⟨img1, hrun, _, _, _, hcells⟩ := render_voronoi_spec seeds d hne img hwf
  refine ⟨img1, hrun, ?_⟩
  intro x y hx hy
  obtain ⟨best, hbest, hcol⟩ := hcells x y hx hy
  exact ⟨best.2, min_element_mem _ _ _ hbest, hcol⟩

/-- Witness for C3: two seeds on a 2x2 grid under the Manhattan metric. -/
theorem render_voronoi_color_of_seed_witness :
    ∃ img1, (Image.new 2 2 (fun _ => Pixel.mk 9 9 9)).render_voronoi
        [Seed.mk 0 0 (Pixel.mk 255 0 0), Seed.mk 1 1 (Pixel.mk 0 0 255)] manhattan_distance
        = .ok img1 ∧
      ∀ x y, x < 2 → y < 2 →
        ∃ s ∈ [Seed.mk 0 0 (Pixel.mk 255 0 0), Seed.mk 1 1 (Pixel.mk 0 0 255)],
          img1.data.elem x y = some s.color :=
  render_voronoi_color_of_seed [Seed.mk 0 0 (Pixel.mk 255 0 0), Seed.mk 1 1 (Pixel.mk 0 0 255)]
    manhattan_distance (by simp) (Image.new 2 2 (fun _ => Pixel.mk 9 9 9)) (by decide)

/-- C4 (as stated, refuted): with an empty seed list `render_voronoi` on a
0x0 grid returns successfully instead of failing, and on a 1x1 grid it
dereferences the past-the-end iterator of `min_element` (undefined behaviour,
a crash in practice) instead of reporting an error. -/
theorem render_voronoi_empty_seeds_not_rejected :
    (Image.new 0 0 (fun _ => Pixel.mk 0 0 0)).render_voronoi ([] : List Seed) manhattan_distance
      = .ok (Image.new 0 0 (fun _ => Pixel.mk 0 0 0)) ∧
    (Image.new 1 1 (fun _ => Pixel.mk 0 0 0)).render_voronoi ([] : List Seed) manhattan_distance
      = .error Fault.deref_end :=
  ⟨rfl, rfl⟩

/-- C4 (amended): `render_voronoi` does not validate the seed list. With an
empty seed list and a grid without cells (width 0 or height 0) it returns
successfully and leaves the grid as it was; and with an empty seed list it
never writes a cell: whenever it returns, the grid is unchanged. -/
theorem render_voronoi_empty_seeds {α : Type} [LE α]
    [DecidableRel (fun (p q : α) => p ≤ q)] (d : Seed → Seed → α) (img : Image) :
    (img.data.width = 0 ∨ img.data.height = 0 → img.render_voronoi [] d = .ok img) ∧
    (∀ img1, img.render_voronoi [] d = .ok img1 → img1 = img) := by
  unfold Image.render_voronoi
  constructor
  · intro hz
    rw [loop_cells_eq_nil _ _ hz]
    rfl
  · intro img1 h
    cases hc : loop_cells img.data.width img.data.height with
    | nil =>
      rw [hc] at h
      simp only [render_cells] at h
      exact (Except.ok.inj h).symm
    | cons c cs =>
      rw [hc] at h
      simp [render_cells, render_cell, nearest, min_element] at h

/-- Witness for C4: a 0x3 image and the Manhattan metric. -/
theorem render_voronoi_empty_seeds_witness :
    (Image.new 0 3 (fun _ => Pixel.mk 0 0 0)).render_voronoi ([] : List Seed) manhattan_distance
      = .ok (Image.new 0 3 (fun _ => Pixel.mk 0 0 0)) :=
  (render_voronoi_empty_seeds manhattan_distance (Image.new 0 3 (fun _ => Pixel.mk 0 0 0))).1
    (Or.inl rfl)

/-- C5 (as stated, refuted): on an image of width 0 and height 5, and on one of
width 5 and height 0, `render_voronoi` with one seed returns successfully with
the (empty) grid. -/
theorem render_voronoi_degenerate_not_rejected :
    (Image.new 0 5 (fun _ => Pixel.mk 0 0 0)).render_voronoi
        [Seed.mk 0 0 (Pixel.mk 255 0 0)] manhattan_distance
      = .ok (Image.new 0 5 (fun _ => Pixel.mk 0 0 0)) ∧
    (Image.new 5 0 (fun _ => Pixel.mk 0 0 0)).render_voronoi
        [Seed.mk 0 0 (Pixel.mk 255 0 0)] manhattan_distance
      = .ok (Image.new 5 0 (fun _ => Pixel.mk 0 0 0)) ∧
    (Image.new 0 5 (fun _ => Pixel.mk 0 0 0)).data.data = [] :=
  ⟨rfl, rfl, rfl⟩

/-- C5 (amended): on an image whose width is 0 or whose height is 0,
`render_voronoi` returns successfully for every seed list and every distance
function; the loops run no iteration and the grid is left as it was. -/
theorem render_voronoi_degenerate {α : Type} [LE α]
    [DecidableRel (fun (p q : α) => p ≤ q)] (seeds : List Seed) (d : Seed → Seed → α)
    (img : Image) (hz : img.data.width = 0 ∨ img.data.height = 0) :
    img.render_voronoi seeds d = .ok img := by
  unfold Image.render_voronoi
  rw [loop_cells_eq_nil _ _ hz]
  rfl

/-- Witness for C5: width 4, height 0, two seeds. -/
theorem render_voronoi_degenerate_witness :
    (Image.new 4 0 (fun _ => Pixel.mk 0 0 0)).render_voronoi
        [Seed.mk 1 1 (Pixel.mk 1 2 3), Seed.mk 3 0 (Pixel.mk 4 5 6)] manhattan_distance
      = .ok (Image.new 4 0 (fun _ => Pixel.mk 0 0 0)) :=
  render_voronoi_degenerate [Seed.mk 1 1 (Pixel.mk 1 2 3), Seed.mk 3 0 (Pixel.mk 4 5 6)]
    manhattan_distance (Image.new 4 0 (fun _ => Pixel.mk 0 0 0)) (Or.inr rfl)

/-- C9: single seed. With the seed list `[s]`, any distance function (whatever
its comparison) and a grid with `width * height` slots, `render_voronoi`
returns, keeps the dimensions, and every cell holds `s.color`. -/
theorem render_voronoi_single_seed {α : Type} [LE α]
    [DecidableRel (fun (p q : α) => p ≤ q)] (s : Seed) (d : Seed → Seed → α)
    (img : Image) (hwf : img.data.WF) :
    ∃ img1, img.render_voronoi [s] d = .ok img1 ∧
      img1.data.width = img.data.width ∧ img1.data.height = img.data.height ∧
      ∀ x y, x < img.data.width → y < img.data.height →
        img1.data.elem x y = some s.color := by
  obtain ⟨img1, hrun, hw, hh, _, hcells⟩ :=
    render_voronoi_spec [s] d (List.cons_ne_nil _ _) img hwf
  refine ⟨img1, hrun, hw, hh, ?_⟩
  intro x y hx hy
  obtain ⟨best, hbest, hcol⟩ := hcells x y hx hy
  have hb : best = (0, s) := by
    simp only [nearest, min_element, min_element_loop, Option.some.injEq] at hbest
    exact hbest.symm
  rw [hcol, hb]

/-- Witness for C9: a 1x1 grid with one seed (placed outside the grid) renders
that seed's colour. -/
theorem render_voronoi_single_seed_witness :
    ∃ img1, (Image.new 1 1 (fun _ => Pixel.mk 9 9 9)).render_voronoi
        [Seed.mk 7 3 (Pixel.mk 10 20 30)] manhattan_distance = .ok img1 ∧
      img1.data.width = 1 ∧ img1.data.height = 1 ∧
      ∀ x y, x < 1 → y < 1 → img1.data.elem x y = some (Pixel.mk 10 20 30) :=
  render_voronoi_single_seed (Seed.mk 7 3 (Pixel.mk 10 20 30)) manhattan_distance
    (Image.new 1 1 (fun _ => Pixel.mk 9 9 9)) (by decide)

/-! ## Writer: verified properties -/

/-- C10: PPM layout. For an image with `width * height` slots the text of
`write_ppm` is the header `P3`, newline, width, space, height, newline, `255`,
newline, followed by `width * height` triples joined by single spaces, and the
`k`-th triple is `red green blue` (decimal, single spaces) of the pixel that
`Matrix::elem` holds at column `k mod width`, row `k div width`. -/
theorem write_ppm_layout (img : Image) (hwf : img.data.WF) :
    ∃ triples : List String,
      triples.length = img.data.width * img.data.height ∧
      (∀ k, k < img.data.width * img.data.height →
        ∃ p, img.data.elem (k % img.data.width) (k / img.data.width) = some p ∧
          triples[k]? = some (toString p.red ++ " " ++ toString p.green ++ " "
            ++ toString p.blue)) ∧
      img.write_ppm
        = "P3\n" ++ toString img.data.width ++ " " ++ toString img.data.height ++ "\n255\n"
          ++ " ".intercalate triples := by
  obtain ⟨hlen, hsz⟩ := hwf
  refine ⟨img.data.data.map format_pixel, ?_, ?_, rfl⟩
  · rw [List.length_map, hlen]
  · intro k hk
    have hidx : img.data.index (k % img.data.width) (k / img.data.width) = k := by
      unfold Matrix.index
      rw [Nat.div_add_mod' k img.data.width]
      exact Nat.mod_eq_of_lt (lt_trans hk hsz)
    have hk1 : k < img.data.data.length := by rw [hlen]; exact hk
    refine ⟨img.data.data[k], ?_, ?_⟩
    · unfold Matrix.elem
      rw [hidx]
      exact List.getElem?_eq_getElem hk1
    · rw [List.getElem?_map, List.getElem?_eq_getElem hk1]
      rfl

/-- Witness for C10: a 2x2 image; the text is also given in full. -/
theorem write_ppm_layout_witness :
    (Image.mk (Matrix.mk 2 2
        [Pixel.mk 1 2 3, Pixel.mk 4 5 6, Pixel.mk 7 8 9, Pixel.mk 10 11 12])).write_ppm
      = "P3\n2 2\n255\n1 2 3 4 5 6 7 8 9 10 11 12" ∧
    ∃ triples : List String,
      triples.length = 2 * 2 ∧
      (∀ k, k < 2 * 2 →
        ∃ p, Matrix.elem (Matrix.mk 2 2
            [Pixel.mk 1 2 3, Pixel.mk 4 5 6, Pixel.mk 7 8 9, Pixel.mk 10 11 12])
              (k % 2) (k / 2) = some p ∧
          triples[k]? = some (toString p.red ++ " " ++ toString p.green ++ " "
            ++ toString p.blue)) ∧
      (Image.mk (Matrix.mk 2 2
          [Pixel.mk 1 2 3, Pixel.mk 4 5 6, Pixel.mk 7 8 9, Pixel.mk 10 11 12])).write_ppm
        = "P3\n" ++ toString 2 ++ " " ++ toString 2 ++ "\n255\n" ++ " ".intercalate triples :=
  ⟨by decide, write_ppm_layout (Image.mk (Matrix.mk 2 2
      [Pixel.mk 1 2 3, Pixel.mk 4 5 6, Pixel.mk 7 8 9, Pixel.mk 10 11 12])) (by decide)⟩

/-! ## Order of the cell assignments -/

theorem Matrix.new_WF {α : Type} (w h : Nat) (junk : Nat → α) (hsz : w * h < SIZE_MOD) :
    (Matrix.new w h junk).WF := by
  unfold Matrix.WF Matrix.new
  simp only [List.length_map, List.length_range]
  exact ⟨Nat.mod_eq_of_lt hsz, hsz⟩

theorem slot_cell (w h k : Nat) (hk : k < w * h) :
    k % w < w ∧ k / w < h ∧ (k / w) * w + k % w = k := by
  have hw : 0 < w := by
    rcases Nat.eq_zero_or_pos w with h0 | h0
    · rw [h0, Nat.zero_mul] at hk
      exact absurd hk (Nat.not_lt_zero _)
    · exact h0
  refine ⟨Nat.mod_lt _ hw, (Nat.div_lt_iff_lt_mul hw).mpr ?_, Nat.div_add_mod' k w⟩
  rw [Nat.mul_comm]
  exact hk

theorem Matrix.data_eq_of_elem_eq {α : Type} (m1 m2 : Matrix α) (hwf1 : m1.WF) (hwf2 : m2.WF)
    (hw : m1.width = m2.width) (hh : m1.height = m2.height)
    (hel : ∀ x y, x < m1.width → y < m1.height → m1.elem x y = m2.elem x y) :
    m1 = m2 := by
  have hdata : m1.data = m2.data := by
    apply List.ext_getElem?
    intro k
    by_cases hk : k < m1.width * m1.height
    · obtain ⟨hx, hy, hxy⟩ := slot_cell m1.width m1.height k hk
      have h1 := (m1.index_eq hwf1 _ _ hx hy).1
      have hx2 : k % m1.width < m2.width := by omega
      have hy2 : k / m1.width < m2.height := by omega
      have h2 := (m2.index_eq hwf2 _ _ hx2 hy2).1
      have := hel _ _ hx hy
      unfold Matrix.elem at this
      rw [h1, h2, ← hw, hxy] at this
      exact this
    · have hl1 : m1.data.length ≤ k := by rw [hwf1.1]; omega
      have hl2 : m2.data.length ≤ k := by rw [hwf2.1, ← hw, ← hh]; omega
      rw [List.getElem?_eq_none hl1, List.getElem?_eq_none hl2]
  cases m1
  cases m2
  simp only [Matrix.mk.injEq]
  exact ⟨hw, hh, hdata⟩

section OrderLemmas

variable {α : Type} [LE α] [DecidableRel (fun (p q : α) => p ≤ q)]

theorem render_cells_perm (seeds : List Seed) (d : Seed → Seed → α)
    (img1 img2 : Image) (hwf1 : img1.data.WF) (hwf2 : img2.data.WF)
    (hw : img1.data.width = img2.data.width) (hh : img1.data.height = img2.data.height)
    (cs1 cs2 : List (Nat × Nat))
    (hp1 : cs1.Perm (loop_cells img1.data.width img1.data.height))
    (hp2 : cs2.Perm (loop_cells img1.data.width img1.data.height)) :
    render_cells seeds d cs1 img1 = render_cells seeds d cs2 img2 := by
  by_cases hne : seeds = []
  · subst hne
    cases hc : loop_cells img1.data.width img1.data.height with
    | nil =>
      rw [hc] at hp1 hp2
      rw [hp1.eq_nil, hp2.eq_nil]
      simp only [render_cells]
      have hcells : ∀ x y, ¬ (x < img1.data.width ∧ y < img1.data.height) := by
        intro x y hxy
        have := (mem_loop_cells _ _ x y).mpr hxy
        rw [hc] at this
        exact absurd this (List.not_mem_nil _)
      have : img1.data = img2.data :=
        Matrix.data_eq_of_elem_eq _ _ hwf1 hwf2 hw hh
          (fun x y hx hy => absurd ⟨hx, hy⟩ (hcells x y))
      cases img1
      cases img2
      simp only [Image.mk.injEq] at this ⊢
      rw [this]
    | cons c cs =>
      rw [hc] at hp1 hp2
      have h1 : cs1 ≠ [] := fun h => by
        rw [h] at hp1
        exact absurd hp1.nil_eq (List.cons_ne_nil _ _).symm
      have h2 : cs2 ≠ [] := fun h => by
        rw [h] at hp2
        exact absurd hp2.nil_eq (List.cons_ne_nil _ _).symm
      obtain ⟨a1, t1, rfl⟩ := List.exists_cons_of_ne_nil h1
      obtain ⟨a2, t2, rfl⟩ := List.exists_cons_of_ne_nil h2
      simp [render_cells, render_cell, nearest, min_element]
  · have hin1 : ∀ c ∈ cs1, c.1 < img1.data.width ∧ c.2 < img1.data.height :=
      fun c hc => (mem_loop_cells _ _ c.1 c.2).mp (hp1.mem_iff.mp hc)
    have hin2 : ∀ c ∈ cs2, c.1 < img2.data.width ∧ c.2 < img2.data.height :=
      fun c hc => by
        rw [← hw, ← hh]
        exact (mem_loop_cells _ _ c.1 c.2).mp (hp2.mem_iff.mp hc)
    obtain ⟨r1, hr1, hw1, hh1, hl1, hc1⟩ := render_cells_spec seeds d hne cs1 img1 hwf1 hin1
    obtain ⟨r2, hr2, hw2, hh2, hl2, hc2⟩ := render_cells_spec seeds d hne cs2 img2 hwf2 hin2
    rw [hr1, hr2]
    have hwfr1 : r1.data.WF := ⟨by rw [hl1, hw1, hh1]; exact hwf1.1, by rw [hw1, hh1]; exact hwf1.2⟩
    have hwfr2 : r2.data.WF := ⟨by rw [hl2, hw2, hh2]; exact hwf2.1, by rw [hw2, hh2]; exact hwf2.2⟩
    have : r1.data = r2.data := by
      apply Matrix.data_eq_of_elem_eq _ _ hwfr1 hwfr2 (by rw [hw1, hw2, hw]) (by rw [hh1, hh2, hh])
      intro x y hx hy
      rw [hw1] at hx
      rw [hh1] at hy
      obtain ⟨b1, hb1, he1⟩ :=
        (hc1 x y hx hy).1 (hp1.mem_iff.mpr ((mem_loop_cells _ _ x y).mpr ⟨hx, hy⟩))
      obtain ⟨b2, hb2, he2⟩ :=
        (hc2 x y (by omega) (by omega)).1
          (hp2.mem_iff.mpr ((mem_loop_cells _ _ x y).mpr ⟨hx, hy⟩))
      rw [hb1] at hb2
      rw [he1, he2, Option.some.inj hb2]
    cases r1
    cases r2
    simp only [Image.mk.injEq] at this ⊢
    rw [this]

end OrderLemmas

/-- C11: determinism under any execution order. For images with
`width * height` slots and equal dimensions, running the per-cell loop bodies
of `render_voronoi` in any permutation of the cells, from any initial
contents of the grid, gives the result of `render_voronoi` itself (the same
grid, or the same fault when the seed list is empty). -/
theorem render_voronoi_order_independent {α : Type} [LE α]
    [DecidableRel (fun (p q : α) => p ≤ q)] (seeds : List Seed) (d : Seed → Seed → α)
    (img1 img2 : Image) (hwf1 : img1.data.WF) (hwf2 : img2.data.WF)
    (hw : img1.data.width = img2.data.width) (hh : img1.data.height = img2.data.height)
    (cs : List (Nat × Nat))
    (hp : cs.Perm (loop_cells img1.data.width img1.data.height)) :
    render_cells seeds d cs img1 = img2.render_voronoi seeds d := by
  unfold Image.render_voronoi
  rw [← hw, ← hh]
  exact render_cells_perm seeds d img1 img2 hwf1 hwf2 hw hh cs _ hp (List.Perm.refl _)

/-- Witness for C11: a 2x1 grid, the cells visited in the reverse order and
from different initial contents. -/
theorem render_voronoi_order_independent_witness :
    render_cells [Seed.mk 0 0 (Pixel.mk 255 0 0), Seed.mk 1 0 (Pixel.mk 0 0 255)]
        manhattan_distance [(1, 0), (0, 0)] (Image.new 2 1 (fun _ => Pixel.mk 7 7 7))
      = (Image.new 2 1 (fun _ => Pixel.mk 9 9 9)).render_voronoi
          [Seed.mk 0 0 (Pixel.mk 255 0 0), Seed.mk 1 0 (Pixel.mk 0 0 255)] manhattan_distance :=
  render_voronoi_order_independent
    [Seed.mk 0 0 (Pixel.mk 255 0 0), Seed.mk 1 0 (Pixel.mk 0 0 255)] manhattan_distance
    (Image.new 2 1 (fun _ => Pixel.mk 7 7 7)) (Image.new 2 1 (fun _ => Pixel.mk 9 9 9))
    (by decide) (by decide) rfl rfl [(1, 0), (0, 0)] (by decide)

/-! ## Each slot is written once -/

theorem loop_cells_nodup (w h : Nat) : (loop_cells w h).Nodup :=
  List.Nodup.product (List.nodup_range w) (List.nodup_range h)

theorem written_slots_perm {α : Type} (m : Matrix α) (hwf : m.WF) :
    ((loop_cells m.width m.height).map (fun c => m.index c.1 c.2)).Perm
      (List.range m.data.length) := by
  have hnd : ((loop_cells m.width m.height).map (fun c => m.index c.1 c.2)).Nodup := by
    apply List.Nodup.map_on _ (loop_cells_nodup _ _)
    rintro ⟨x, y⟩ hc ⟨x1, y1⟩ hc1 he
    obtain ⟨hx, hy⟩ := (mem_loop_cells _ _ x y).mp hc
    obtain ⟨hx1, hy1⟩ := (mem_loop_cells _ _ x1 y1).mp hc1
    simp only at he
    rw [(m.index_eq hwf x y hx hy).1, (m.index_eq hwf x1 y1 hx1 hy1).1] at he
    obtain ⟨h1, h2⟩ := cell_index_inj m.width x y x1 y1 hx hx1 he
    rw [h1, h2]
  apply (List.perm_ext_iff_of_nodup hnd (List.nodup_range _)).mpr
  intro k
  simp only [List.mem_map, List.mem_range, Prod.exists]
  constructor
  · rintro ⟨x, y, hc, rfl⟩
    obtain ⟨hx, hy⟩ := (mem_loop_cells _ _ x y).mp hc
    exact (m.index_eq hwf x y hx hy).2
  · intro hk
    rw [hwf.1] at hk
    obtain ⟨hx, hy, hxy⟩ := slot_cell m.width m.height k hk
    refine ⟨k % m.width, k / m.width, (mem_loop_cells _ _ _ _).mpr ⟨hx, hy⟩, ?_⟩
    rw [(m.index_eq hwf _ _ hx hy).1, hxy]

section WriteLemmas

variable {α : Type} [LE α] [DecidableRel (fun (p q : α) => p ≤ q)]

theorem render_cells_writes (seeds : List Seed) (d : Seed → Seed → α) (hne : seeds ≠ [])
    (cs : List (Nat × Nat)) (img : Image) (hwf : img.data.WF)
    (hcs : ∀ c ∈ cs, c.1 < img.data.width ∧ c.2 < img.data.height) :
    render_cells seeds d cs img
      = .ok (Image.mk (Matrix.mk img.data.width img.data.height
          ((cs.map (fun c => (img.data.index c.1 c.2,
              ((nearest seeds d c.1 c.2).map (fun b => b.2.color)).getD (Pixel.mk 0 0 0)))).foldl
            (fun data w => data.set w.1 w.2) img.data.data))) := by
  induction cs generalizing img with
  | nil => rfl
  | cons c cs ih =>
    obtain ⟨hcx, hcy⟩ := hcs c (List.mem_cons_self _ _)
    obtain ⟨best, hbest⟩ := min_element_isSome
      (fun a b => decide (d a (Seed.mk c.1 c.2 (Pixel.mk 0 0 0))
        ≤ d b (Seed.mk c.1 c.2 (Pixel.mk 0 0 0)))) seeds hne
    have hbest1 : nearest seeds d c.1 c.2 = some best := hbest
    have hstep := render_cell_ok seeds d img hwf c.1 c.2 hcx hcy best hbest
    have hwf1 : Matrix.WF { img.data with
        data := img.data.data.set (img.data.index c.1 c.2) best.2.color } := by
      unfold Matrix.WF
      simp only [List.length_set]
      exact hwf
    have hrest := ih _ hwf1 (fun c1 hc1 => hcs c1 (List.mem_cons_of_mem _ hc1))
    simp only [render_cells, hstep]
    rw [hrest]
    simp only [List.map_cons, List.foldl_cons, hbest1, Option.map_some', Option.getD_some]
    rfl

end WriteLemmas

/-- C12: each cell is written once and in bounds. For an image with
`width * height` slots and a non-empty seed list: the index of `Matrix::elem`
for an in-range pair is `y * width + x`, lies below `width * height` and
inside the vector, and is injective on in-range pairs; the loops visit each
in-range pair exactly once (the list of visited cells has no duplicate) and no
other pair; the indices of the visited cells are a permutation of all slots;
the loop body for an in-range cell returns and changes exactly the slot of
that cell, storing the colour found by `min_element`; and `render_voronoi`
returns with width, height and vector length unchanged, its grid being the
initial one after a sequence `writes` of single-slot assignments, one per
visited cell in loop order, whose slots are a permutation of all slots, so
that every slot ends with the colour computed for its cell. -/
theorem render_voronoi_writes_each_slot_once {α : Type} [LE α]
    [DecidableRel (fun (p q : α) => p ≤ q)] (seeds : List Seed) (d : Seed → Seed → α)
    (hne : seeds ≠ []) (img : Image) (hwf : img.data.WF) :
    (∀ x y, x < img.data.width → y < img.data.height →
      img.data.index x y = y * img.data.width + x ∧
      img.data.index x y < img.data.width * img.data.height ∧
      img.data.index x y < img.data.data.length) ∧
    (∀ x y x1 y1, x < img.data.width → y < img.data.height →
      x1 < img.data.width → y1 < img.data.height →
      img.data.index x y = img.data.index x1 y1 → x = x1 ∧ y = y1) ∧
    ((loop_cells img.data.width img.data.height).Nodup ∧
      ∀ x y, (x, y) ∈ loop_cells img.data.width img.data.height
        ↔ x < img.data.width ∧ y < img.data.height) ∧
    ((loop_cells img.data.width img.data.height).map
        (fun c => img.data.index c.1 c.2)).Perm (List.range img.data.data.length) ∧
    (∀ x y, x < img.data.width → y < img.data.height →
      ∃ best, nearest seeds d x y = some best ∧
        render_cell seeds d img x y
          = .ok (Image.mk (Matrix.mk img.data.width img.data.height
              (img.data.data.set (img.data.index x y) best.2.color)))) ∧
    ∃ (img1 : Image) (writes : List (Nat × Pixel)),
      img.render_voronoi seeds d = .ok img1 ∧
      img1.data.width = img.data.width ∧ img1.data.height = img.data.height ∧
      img1.data.data.length = img.data.data.length ∧
      writes.length = (loop_cells img.data.width img.data.height).length ∧
      (∀ (i : Nat) (c : Nat × Nat),
        (loop_cells img.data.width img.data.height)[i]? = some c →
        ∃ best, nearest seeds d c.1 c.2 = some best ∧
          writes[i]? = some (img.data.index c.1 c.2, best.2.color)) ∧
      img1.data.data = writes.foldl (fun data w => data.set w.1 w.2) img.data.data ∧
      (writes.map Prod.fst).Perm (List.range img.data.data.length) ∧
      (∀ k, k < img.data.data.length →
        ∃ best, nearest seeds d (k % img.data.width) (k / img.data.width) = some best ∧
          img1.data.data[k]? = some best.2.color) := by
  refine ⟨?_, ?_, ?_, written_slots_perm img.data hwf, ?_, ?_⟩
  · intro x y hx hy
    obtain ⟨h1, h2⟩ := img.data.index_eq hwf x y hx hy
    exact ⟨h1, by rw [h1]; exact cell_index_lt _ _ x y hx hy, h2⟩
  · intro x y x1 y1 hx hy hx1 hy1 he
    rw [(img.data.index_eq hwf x y hx hy).1, (img.data.index_eq hwf x1 y1 hx1 hy1).1] at he
    exact cell_index_inj img.data.width x y x1 y1 hx hx1 he
  · exact ⟨loop_cells_nodup _ _, fun x y => mem_loop_cells _ _ x y⟩
  · intro x y hx hy
    obtain ⟨best, hbest⟩ := min_element_isSome
      (fun a b => decide (d a (Seed.mk x y (Pixel.mk 0 0 0))
        ≤ d b (Seed.mk x y (Pixel.mk 0 0 0)))) seeds hne
    exact ⟨best, hbest, render_cell_ok seeds d img hwf x y hx hy best hbest⟩
  · obtain ⟨img1, hrun, hw, hh, hlen, hcells⟩ := render_voronoi_spec seeds d hne img hwf
    have hfold := render_cells_writes seeds d hne
      (loop_cells img.data.width img.data.height) img hwf
      (fun c hc => (mem_loop_cells _ _ c.1 c.2).mp hc)
    have hrun1 := hrun
    unfold Image.render_voronoi at hrun1
    rw [hfold] at hrun1
    have himg := Except.ok.inj hrun1
    refine ⟨img1, (loop_cells img.data.width img.data.height).map
      (fun c => (img.data.index c.1 c.2,
        ((nearest seeds d c.1 c.2).map (fun b => b.2.color)).getD (Pixel.mk 0 0 0))),
      hrun, hw, hh, hlen, List.length_map _ _, ?_, ?_, ?_, ?_⟩
    · intro i c hic
      obtain ⟨best, hbest⟩ := min_element_isSome
        (fun a b => decide (d a (Seed.mk c.1 c.2 (Pixel.mk 0 0 0))
          ≤ d b (Seed.mk c.1 c.2 (Pixel.mk 0 0 0)))) seeds hne
      have hbest1 : nearest seeds d c.1 c.2 = some best := hbest
      refine ⟨best, hbest1, ?_⟩
      rw [List.getElem?_map, hic]
      simp only [Option.map_some', hbest1, Option.getD_some]
    · rw [← himg]
    · rw [List.map_map]
      exact written_slots_perm img.data hwf
    · intro k hk
      rw [hwf.1] at hk
      obtain ⟨hx, hy, hxy⟩ := slot_cell img.data.width img.data.height k hk
      obtain ⟨best, hbest, hcol⟩ := hcells _ _ hx hy
      refine ⟨best, hbest, ?_⟩
      have hwf1 : img1.data.WF :=
        ⟨by rw [hlen, hw, hh]; exact hwf.1, by rw [hw, hh]; exact hwf.2⟩
      have hidx := (img1.data.index_eq hwf1 _ _ (by rw [hw]; exact hx)
        (by rw [hh]; exact hy)).1
      unfold Matrix.elem at hcol
      rw [hidx, hw, hxy] at hcol
      exact hcol

/-- Witness for C12: a freshly constructed 3x2 image and one seed; every slot
of the result holds the seed's colour, none the initial content. -/
theorem render_voronoi_writes_each_slot_once_witness :
    (∀ x y, x < 3 → y < 2 →
      (Image.new 3 2 (fun _ => Pixel.mk 9 9 9)).data.index x y = y * 3 + x ∧
      (Image.new 3 2 (fun _ => Pixel.mk 9 9 9)).data.index x y < 3 * 2 ∧
      (Image.new 3 2 (fun _ => Pixel.mk 9 9 9)).data.index x y
        < (Image.new 3 2 (fun _ => Pixel.mk 9 9 9)).data.data.length) ∧
    (loop_cells 3 2).Nodup ∧
    ((loop_cells 3 2).map
        (fun c => (Image.new 3 2 (fun _ => Pixel.mk 9 9 9)).data.index c.1 c.2)).Perm
      (List.range (Image.new 3 2 (fun _ => Pixel.mk 9 9 9)).data.data.length) ∧
    (Image.new 3 2 (fun _ => Pixel.mk 9 9 9)).render_voronoi
        [Seed.mk 1 1 (Pixel.mk 10 20 30)] manhattan_distance
      = .ok (Image.mk (Matrix.mk 3 2
          [Pixel.mk 10 20 30, Pixel.mk 10 20 30, Pixel.mk 10 20 30,
            Pixel.mk 10 20 30, Pixel.mk 10 20 30, Pixel.mk 10 20 30])) ∧
    (loop_cells 3 2).map
        (fun c => (Image.new 3 2 (fun _ => Pixel.mk 9 9 9)).data.index c.1 c.2)
      = [0, 3, 1, 4, 2, 5] :=
  ⟨(render_voronoi_writes_each_slot_once [Seed.mk 1 1 (Pixel.mk 10 20 30)] manhattan_distance
      (by simp) (Image.new 3 2 (fun _ => Pixel.mk 9 9 9)) (by decide)).1,
   (render_voronoi_writes_each_slot_once [Seed.mk 1 1 (Pixel.mk 10 20 30)] manhattan_distance
      (by simp) (Image.new 3 2 (fun _ => Pixel.mk 9 9 9)) (by decide)).2.2.1.1,
   (render_voronoi_writes_each_slot_once [Seed.mk 1 1 (Pixel.mk 10 20 30)] manhattan_distance
      (by simp) (Image.new 3 2 (fun _ => Pixel.mk 9 9 9)) (by decide)).2.2.2.1,
   rfl, by decide⟩

/-! ## Euclidean metric -/

theorem euclidian_distance_eq {α : Type} (hypot : Int → Int → α) (a b : Seed)
    (hax : a.x < 2 ^ 62) (hay : a.y < 2 ^ 62) (hbx : b.x < 2 ^ 62) (hby : b.y < 2 ^ 62) :
    euclidian_distance hypot a b
      = hypot (long_to_double |(a.x : Int) - (b.x : Int)|)
          (long_to_double |(a.y : Int) - (b.y : Int)|) := by
  have h62 : (2 : Nat) ^ 62 < 2 ^ 63 := by norm_num
  unfold euclidian_distance
  rw [abs_diff_exact a.x b.x (by omega) (by omega), abs_diff_exact a.y b.y (by omega) (by omega)]

/-- C13 (as stated, refuted): with `a = (2^53 + 1, 0)` and `b = (0, 0)`, valid
grid coordinates (below `2^62`), `hypot` does not receive the exact integer
`|a.x - b.x| = 2^53 + 1` but the `double` `2^53`, and with the exact real
`hypot` the result differs from `sqrt((a.x - b.x)^2 + (a.y - b.y)^2)`. -/
theorem euclidian_distance_not_exact :
    (9007199254740993 : Nat) < 2 ^ 62 ∧
    long_to_double (llabs (to_long_long (size_t_sub 9007199254740993 0))) = 9007199254740992 ∧
    euclidian_distance (fun p q : Int => Real.sqrt ((p : ℝ) ^ 2 + (q : ℝ) ^ 2))
        (Seed.mk 9007199254740993 0 (Pixel.mk 0 0 0)) (Seed.mk 0 0 (Pixel.mk 0 0 0))
      ≠ Real.sqrt ((((9007199254740993 : Nat) : ℝ) - ((0 : Nat) : ℝ)) ^ 2
          + (((0 : Nat) : ℝ) - ((0 : Nat) : ℝ)) ^ 2) := by
  have h1 : long_to_double (llabs (to_long_long (size_t_sub 9007199254740993 0)))
      = 9007199254740992 := by decide
  have h0 : long_to_double (llabs (to_long_long (size_t_sub 0 0))) = 0 := by decide
  refine ⟨by norm_num, h1, ?_⟩
  simp only [euclidian_distance, h1, h0]
  have e1 : (((9007199254740992 : Int) : ℝ)) ^ 2 + (((0 : Int) : ℝ)) ^ 2
      = (9007199254740992 : ℝ) ^ 2 := by norm_num
  have e2 : (((9007199254740993 : Nat) : ℝ) - ((0 : Nat) : ℝ)) ^ 2
      + (((0 : Nat) : ℝ) - ((0 : Nat) : ℝ)) ^ 2 = (9007199254740993 : ℝ) ^ 2 := by norm_num
  rw [e1, e2, Real.sqrt_sq (by norm_num), Real.sqrt_sq (by norm_num)]
  norm_num

/-- C13 (amended): for seeds with all coordinates below `2^62`,
`euclidian_distance a b` is `hypot` applied to the `double`s nearest to the
exact integers `|a.x - b.x|` and `|a.y - b.y|` (wrapped `size_t` subtraction
and `llabs` lose nothing); when both integers are at most `2^53` they are
passed exactly, and with `hypot` the exact real function the result is then
`sqrt((a.x - b.x)^2 + (a.y - b.y)^2)`. -/
theorem euclidian_distance_formula (a b : Seed) (hax : a.x < 2 ^ 62) (hay : a.y < 2 ^ 62)
    (hbx : b.x < 2 ^ 62) (hby : b.y < 2 ^ 62) :
    (∀ (α : Type) (hypot : Int → Int → α),
      euclidian_distance hypot a b
          = hypot (long_to_double |(a.x : Int) - (b.x : Int)|)
              (long_to_double |(a.y : Int) - (b.y : Int)|) ∧
      (|(a.x : Int) - (b.x : Int)| ≤ 2 ^ 53 → |(a.y : Int) - (b.y : Int)| ≤ 2 ^ 53 →
        euclidian_distance hypot a b
          = hypot |(a.x : Int) - (b.x : Int)| |(a.y : Int) - (b.y : Int)|)) ∧
    (∀ hypot : Int → Int → ℝ,
      (∀ p q : Int, hypot p q = Real.sqrt ((p : ℝ) ^ 2 + (q : ℝ) ^ 2)) →
      |(a.x : Int) - (b.x : Int)| ≤ 2 ^ 53 → |(a.y : Int) - (b.y : Int)| ≤ 2 ^ 53 →
      euclidian_distance hypot a b
        = Real.sqrt (((a.x : ℝ) - (b.x : ℝ)) ^ 2 + ((a.y : ℝ) - (b.y : ℝ)) ^ 2)) := by
  have hexact : ∀ (α : Type) (hypot : Int → Int → α),
      |(a.x : Int) - (b.x : Int)| ≤ 2 ^ 53 → |(a.y : Int) - (b.y : Int)| ≤ 2 ^ 53 →
      euclidian_distance hypot a b
        = hypot |(a.x : Int) - (b.x : Int)| |(a.y : Int) - (b.y : Int)| := by
    intro α hypot hx hy
    rw [euclidian_distance_eq hypot a b hax hay hbx hby,
      long_to_double_small _ (abs_nonneg _) hx, long_to_double_small _ (abs_nonneg _) hy]
  refine ⟨fun α hypot => ⟨euclidian_distance_eq hypot a b hax hay hbx hby, hexact α hypot⟩, ?_⟩
  intro hypot hhyp hx hy
  rw [hexact ℝ hypot hx hy, hhyp]
  congr 1
  push_cast
  rw [sq_abs, sq_abs]

/-- Witness for C13: `a = (3, 3)`, `b = (0, 7)` with the exact `hypot`; the
distance is `sqrt((3 - 0)^2 + (3 - 7)^2)`. -/
theorem euclidian_distance_formula_witness :
    euclidian_distance (fun p q : Int => Real.sqrt ((p : ℝ) ^ 2 + (q : ℝ) ^ 2))
        (Seed.mk 3 3 (Pixel.mk 1 2 3)) (Seed.mk 0 7 (Pixel.mk 4 5 6))
      = Real.sqrt ((((3 : Nat) : ℝ) - ((0 : Nat) : ℝ)) ^ 2
          + (((3 : Nat) : ℝ) - ((7 : Nat) : ℝ)) ^ 2) :=
  (euclidian_distance_formula (Seed.mk 3 3 (Pixel.mk 1 2 3)) (Seed.mk 0 7 (Pixel.mk 4 5 6))
    (by norm_num) (by norm_num) (by norm_num) (by norm_num)).2 _ (fun _ _ => rfl)
    (by norm_num) (by norm_num)

/-! ## Which seed wins -/

theorem min_element_loop_last {α : Type} (comp : α → α → Bool) (cs : List α) (k : Nat)
    (best : Nat × α) (hb : best.1 < k) :
    ∀ j t, cs[j]? = some t → (min_element_loop comp cs k best).1 < k + j →
      comp t (min_element_loop comp cs k best).2 = false := by
  induction cs generalizing k best with
  | nil => intro j t h; simp at h
  | cons c cs ih =>
    intro j t hj hlt
    unfold min_element_loop at hlt ⊢
    have hb1 : (if comp c best.2 = true then (k, c) else best).1 < k + 1 := by
      split_ifs
      · exact Nat.lt_succ_self k
      · exact Nat.lt_succ_of_lt hb
    cases j with
    | zero =>
      simp only [List.getElem?_cons_zero, Option.some.injEq] at hj
      subst hj
      rcases min_element_loop_pos comp cs (k + 1) (if comp c best.2 = true then (k, c) else best)
        with h | ⟨j1, _, hk⟩
      · rw [h] at hlt ⊢
        by_cases hc : comp c best.2 = true
        · simp [hc] at hlt
        · simp [hc]
      · omega
    | succ j1 =>
      simp only [List.getElem?_cons_succ] at hj
      exact ih (k + 1) _ hb1 j1 t hj (by omega)

theorem min_element_last {α : Type} (comp : α → α → Bool) (xs : List α) (r : Nat × α)
    (h : min_element comp xs = some r) :
    ∀ j t, r.1 < j → xs[j]? = some t → comp t r.2 = false := by
  cases xs with
  | nil => simp [min_element] at h
  | cons a rest =>
    simp only [min_element, Option.some.injEq] at h
    intro j t hlt hj
    cases j with
    | zero => exact absurd hlt (Nat.not_lt_zero _)
    | succ j1 =>
      simp only [List.getElem?_cons_succ] at hj
      have := min_element_loop_last comp rest 1 (0, a) Nat.zero_lt_one j1 t hj
      rw [h] at this
      exact this (by omega)

theorem render_voronoi_spec_min {α : Type} [LinearOrder α] (seeds : List Seed)
    (d : Seed → Seed → α) (hne : seeds ≠ []) (img : Image) (hwf : img.data.WF) :
    ∃ img1, img.render_voronoi seeds d = .ok img1 ∧
      ∀ x y, x < img.data.width → y < img.data.height →
        ∃ (i : Nat) (s : Seed), seeds[i]? = some s ∧ img1.data.elem x y = some s.color ∧
          (∀ t ∈ seeds, d s (Seed.mk x y (Pixel.mk 0 0 0)) ≤ d t (Seed.mk x y (Pixel.mk 0 0 0))) ∧
          (∀ (j : Nat) (t : Seed), i < j → seeds[j]? = some t →
            d s (Seed.mk x y (Pixel.mk 0 0 0)) < d t (Seed.mk x y (Pixel.mk 0 0 0))) := by
  obtain ⟨img1, hrun, _, _, _, hcells⟩ := render_voronoi_spec seeds d hne img hwf
  refine ⟨img1, hrun, ?_⟩
  intro x y hx hy
  obtain ⟨best, hbest, hcol⟩ := hcells x y hx hy
  refine ⟨best.1, best.2, min_element_get _ _ _ hbest, hcol, ?_, ?_⟩
  · intro t ht
    have := min_element_le
      (fun a b => decide (d a (Seed.mk x y (Pixel.mk 0 0 0)) ≤ d b (Seed.mk x y (Pixel.mk 0 0 0))))
      (fun a b => by
        rcases le_total (d a (Seed.mk x y (Pixel.mk 0 0 0))) (d b (Seed.mk x y (Pixel.mk 0 0 0)))
          with h | h
        · exact Or.inl (decide_eq_true h)
        · exact Or.inr (decide_eq_true h))
      (fun a b c hab hbc =>
        decide_eq_true (le_trans (of_decide_eq_true hab) (of_decide_eq_true hbc)))
      seeds best hbest t ht
    exact of_decide_eq_true this
  · intro j t hlt hj
    have := min_element_last
      (fun a b => decide (d a (Seed.mk x y (Pixel.mk 0 0 0)) ≤ d b (Seed.mk x y (Pixel.mk 0 0 0))))
      seeds best hbest j t hlt hj
    exact not_le.mp (of_decide_eq_false this)

theorem render_voronoi_owner {α : Type} [LinearOrder α] (seeds : List Seed)
    (d : Seed → Seed → α) (img : Image) (hwf : img.data.WF) (x y : Nat)
    (hx : x < img.data.width) (hy : y < img.data.height) (s : Seed) (hs : s ∈ seeds)
    (hmin : ∀ t ∈ seeds, d t (Seed.mk x y (Pixel.mk 0 0 0)) ≤ d s (Seed.mk x y (Pixel.mk 0 0 0)) →
      t.color = s.color) :
    ∃ img1, img.render_voronoi seeds d = .ok img1 ∧ img1.data.elem x y = some s.color := by
  obtain ⟨img1, hrun, hcells⟩ :=
    render_voronoi_spec_min seeds d (List.ne_nil_of_mem hs) img hwf
  obtain ⟨i, t, hi, hcol, hle, _⟩ := hcells x y hx hy
  exact ⟨img1, hrun, by rw [hcol, hmin t (List.getElem?_mem hi) (hle s hs)]⟩

theorem manhattan_distance_zero (a b : Seed) (hax : a.x < 2 ^ 62) (hay : a.y < 2 ^ 62)
    (hbx : b.x < 2 ^ 62) (hby : b.y < 2 ^ 62) :
    0 ≤ manhattan_distance a b ∧ (manhattan_distance a b = 0 ↔ a.x = b.x ∧ a.y = b.y) := by
  rw [manhattan_distance_eq a b hax hay hbx hby, long_to_double_eq_zero]
  have h1 := abs_nonneg ((a.x : Int) - (b.x : Int))
  have h2 := abs_nonneg ((a.y : Int) - (b.y : Int))
  have hx : |(a.x : Int) - (b.x : Int)| = 0 ↔ a.x = b.x := by
    rw [abs_eq_zero]; omega
  have hy : |(a.y : Int) - (b.y : Int)| = 0 ↔ a.y = b.y := by
    rw [abs_eq_zero]; omega
  refine ⟨long_to_double_nonneg _ (add_nonneg h1 h2), ?_⟩
  rw [← hx, ← hy]
  omega

theorem euclidian_distance_zero (hypot : Int → Int → ℝ)
    (hhyp : ∀ p q : Int, hypot p q = Real.sqrt ((p : ℝ) ^ 2 + (q : ℝ) ^ 2)) (a b : Seed)
    (hax : a.x < 2 ^ 62) (hay : a.y < 2 ^ 62) (hbx : b.x < 2 ^ 62) (hby : b.y < 2 ^ 62) :
    0 ≤ euclidian_distance hypot a b ∧
      (euclidian_distance hypot a b = 0 ↔ a.x = b.x ∧ a.y = b.y) := by
  have hx : |(a.x : Int) - (b.x : Int)| = 0 ↔ a.x = b.x := by
    rw [abs_eq_zero]; omega
  have hy : |(a.y : Int) - (b.y : Int)| = 0 ↔ a.y = b.y := by
    rw [abs_eq_zero]; omega
  rw [euclidian_distance_eq hypot a b hax hay hbx hby, hhyp]
  refine ⟨Real.sqrt_nonneg _, ?_⟩
  rw [Real.sqrt_eq_zero (by positivity)]
  constructor
  · intro h
    have hp : ((long_to_double |(a.x : Int) - (b.x : Int)| : Int) : ℝ) = 0 := by nlinarith
    have hq : ((long_to_double |(a.y : Int) - (b.y : Int)| : Int) : ℝ) = 0 := by nlinarith
    rw [Int.cast_eq_zero, long_to_double_eq_zero] at hp hq
    exact ⟨hx.mp hp, hy.mp hq⟩
  · rintro ⟨h1, h2⟩
    rw [(long_to_double_eq_zero _).mpr (hx.mpr h1), (long_to_double_eq_zero _).mpr (hy.mpr h2)]
    simp

/-- C14: a seed on a pixel owns that pixel. For an image with
`width * height` slots, a seed list with valid grid coordinates (below
`2^62`) and an in-range cell `(x, y)` at which exactly one seed `s` of the
list sits, `render_voronoi` returns and stores `s.color` at `(x, y)`, under
`manhattan_distance` and under `euclidian_distance` with `hypot` the exact
real function. -/
theorem render_voronoi_seed_owns_pixel (seeds : List Seed) (img : Image) (hwf : img.data.WF)
    (hseeds : ∀ t ∈ seeds, t.x < 2 ^ 62 ∧ t.y < 2 ^ 62)
    (x y : Nat) (hx : x < img.data.width) (hy : y < img.data.height)
    (s : Seed) (hs : s ∈ seeds) (hsx : s.x = x) (hsy : s.y = y)
    (huniq : ∀ t ∈ seeds, t.x = x → t.y = y → t = s) :
    (∃ img1, img.render_voronoi seeds manhattan_distance = .ok img1 ∧
      img1.data.elem x y = some s.color) ∧
    ∀ hypot : Int → Int → ℝ,
      (∀ p q : Int, hypot p q = Real.sqrt ((p : ℝ) ^ 2 + (q : ℝ) ^ 2)) →
      ∃ img1, img.render_voronoi seeds (euclidian_distance hypot) = .ok img1 ∧
        img1.data.elem x y = some s.color := by
  obtain ⟨hsx62, hsy62⟩ := hseeds s hs
  have hx62 : x < 2 ^ 62 := hsx ▸ hsx62
  have hy62 : y < 2 ^ 62 := hsy ▸ hsy62
  constructor
  · apply render_voronoi_owner seeds manhattan_distance img hwf x y hx hy s hs
    intro t ht hle
    obtain ⟨htx, hty⟩ := hseeds t ht
    have hs0 := (manhattan_distance_zero s (Seed.mk x y (Pixel.mk 0 0 0))
      hsx62 hsy62 hx62 hy62).2.mpr ⟨hsx, hsy⟩
    have ht0 := manhattan_distance_zero t (Seed.mk x y (Pixel.mk 0 0 0)) htx hty hx62 hy62
    rw [hs0] at hle
    obtain ⟨h1, h2⟩ := ht0.2.mp (le_antisymm hle ht0.1)
    rw [huniq t ht h1 h2]
  · intro hypot hhyp
    apply render_voronoi_owner seeds (euclidian_distance hypot) img hwf x y hx hy s hs
    intro t ht hle
    obtain ⟨htx, hty⟩ := hseeds t ht
    have hs0 := (euclidian_distance_zero hypot hhyp s (Seed.mk x y (Pixel.mk 0 0 0))
      hsx62 hsy62 hx62 hy62).2.mpr ⟨hsx, hsy⟩
    have ht0 := euclidian_distance_zero hypot hhyp t (Seed.mk x y (Pixel.mk 0 0 0))
      htx hty hx62 hy62
    rw [hs0] at hle
    obtain ⟨h1, h2⟩ := ht0.2.mp (le_antisymm hle ht0.1)
    rw [huniq t ht h1 h2]

/-- Witness for C14: the 2x1 grid with seeds `[(0,0) A, (1,0) B]`, `A` red and
`B` blue. The cell `(1, 0)` gets `B` under both metrics, the Manhattan render
is the grid `[A, B]`, and `write_ppm` emits the header for `2 1` followed by
the triple of `A` and the triple of `B`. -/
theorem render_voronoi_seed_owns_pixel_witness :
    ((∃ img1, (Image.new 2 1 (fun _ => Pixel.mk 9 9 9)).render_voronoi
          [Seed.mk 0 0 (Pixel.mk 255 0 0), Seed.mk 1 0 (Pixel.mk 0 0 255)] manhattan_distance
          = .ok img1 ∧
        img1.data.elem 1 0 = some (Pixel.mk 0 0 255)) ∧
      ∃ img1, (Image.new 2 1 (fun _ => Pixel.mk 9 9 9)).render_voronoi
          [Seed.mk 0 0 (Pixel.mk 255 0 0), Seed.mk 1 0 (Pixel.mk 0 0 255)]
          (euclidian_distance (fun p q : Int => Real.sqrt ((p : ℝ) ^ 2 + (q : ℝ) ^ 2)))
          = .ok img1 ∧
        img1.data.elem 1 0 = some (Pixel.mk 0 0 255)) ∧
    (Image.new 2 1 (fun _ => Pixel.mk 9 9 9)).render_voronoi
        [Seed.mk 0 0 (Pixel.mk 255 0 0), Seed.mk 1 0 (Pixel.mk 0 0 255)] manhattan_distance
      = .ok (Image.mk (Matrix.mk 2 1 [Pixel.mk 255 0 0, Pixel.mk 0 0 255])) ∧
    (Image.mk (Matrix.mk 2 1 [Pixel.mk 255 0 0, Pixel.mk 0 0 255])).write_ppm
      = "P3\n2 1\n255\n255 0 0 0 0 255" :=
  ⟨⟨(render_voronoi_seed_owns_pixel
        [Seed.mk 0 0 (Pixel.mk 255 0 0), Seed.mk 1 0 (Pixel.mk 0 0 255)]
        (Image.new 2 1 (fun _ => Pixel.mk 9 9 9)) (by decide) (by decide) 1 0
        (by decide) (by decide) (Seed.mk 1 0 (Pixel.mk 0 0 255)) (by decide) rfl rfl
        (by decide)).1,
      (render_voronoi_seed_owns_pixel
        [Seed.mk 0 0 (Pixel.mk 255 0 0), Seed.mk 1 0 (Pixel.mk 0 0 255)]
        (Image.new 2 1 (fun _ => Pixel.mk 9 9 9)) (by decide) (by decide) 1 0
        (by decide) (by decide) (Seed.mk 1 0 (Pixel.mk 0 0 255)) (by decide) rfl rfl
        (by decide)).2 _ (fun _ _ => rfl)⟩,
    rfl, by decide⟩

/-- C15: the two metrics can disagree. On a 4x6 grid with seeds `(3,3)` red
and `(0,5)` blue, the cell `(0, 0)` is strictly nearer to the first seed under
`euclidian_distance` with the exact real `hypot` (`sqrt 18 < 5`) and strictly
nearer to the second under `manhattan_distance` (`5 < 6`); the Euclidean
render stores red there and the Manhattan render stores blue. -/
theorem metrics_disagree :
    euclidian_distance (fun p q : Int => Real.sqrt ((p : ℝ) ^ 2 + (q : ℝ) ^ 2))
        (Seed.mk 3 3 (Pixel.mk 255 0 0)) (Seed.mk 0 0 (Pixel.mk 0 0 0))
      < euclidian_distance (fun p q : Int => Real.sqrt ((p : ℝ) ^ 2 + (q : ℝ) ^ 2))
        (Seed.mk 0 5 (Pixel.mk 0 0 255)) (Seed.mk 0 0 (Pixel.mk 0 0 0)) ∧
    manhattan_distance (Seed.mk 0 5 (Pixel.mk 0 0 255)) (Seed.mk 0 0 (Pixel.mk 0 0 0))
      < manhattan_distance (Seed.mk 3 3 (Pixel.mk 255 0 0)) (Seed.mk 0 0 (Pixel.mk 0 0 0)) ∧
    ∃ imgE imgM,
      (Image.new 4 6 (fun _ => Pixel.mk 9 9 9)).render_voronoi
          [Seed.mk 3 3 (Pixel.mk 255 0 0), Seed.mk 0 5 (Pixel.mk 0 0 255)]
          (euclidian_distance (fun p q : Int => Real.sqrt ((p : ℝ) ^ 2 + (q : ℝ) ^ 2)))
        = .ok imgE ∧
      (Image.new 4 6 (fun _ => Pixel.mk 9 9 9)).render_voronoi
          [Seed.mk 3 3 (Pixel.mk 255 0 0), Seed.mk 0 5 (Pixel.mk 0 0 255)] manhattan_distance
        = .ok imgM ∧
      imgE.data.elem 0 0 = some (Pixel.mk 255 0 0) ∧
      imgM.data.elem 0 0 = some (Pixel.mk 0 0 255) ∧
      Pixel.mk 255 0 0 ≠ Pixel.mk 0 0 255 := by
  have h3 : long_to_double (llabs (to_long_long (size_t_sub 3 0))) = 3 := by decide
  have h0 : long_to_double (llabs (to_long_long (size_t_sub 0 0))) = 0 := by decide
  have h5 : long_to_double (llabs (to_long_long (size_t_sub 5 0))) = 5 := by decide
  have hE : euclidian_distance (fun p q : Int => Real.sqrt ((p : ℝ) ^ 2 + (q : ℝ) ^ 2))
        (Seed.mk 3 3 (Pixel.mk 255 0 0)) (Seed.mk 0 0 (Pixel.mk 0 0 0))
      < euclidian_distance (fun p q : Int => Real.sqrt ((p : ℝ) ^ 2 + (q : ℝ) ^ 2))
        (Seed.mk 0 5 (Pixel.mk 0 0 255)) (Seed.mk 0 0 (Pixel.mk 0 0 0)) := by
    simp only [euclidian_distance, h3, h0, h5]
    apply Real.sqrt_lt_sqrt (by positivity)
    norm_num
  have hM : manhattan_distance (Seed.mk 0 5 (Pixel.mk 0 0 255)) (Seed.mk 0 0 (Pixel.mk 0 0 0))
      < manhattan_distance (Seed.mk 3 3 (Pixel.mk 255 0 0)) (Seed.mk 0 0 (Pixel.mk 0 0 0)) := by
    decide
  obtain ⟨imgE, hrunE, hcolE⟩ := render_voronoi_owner
    [Seed.mk 3 3 (Pixel.mk 255 0 0), Seed.mk 0 5 (Pixel.mk 0 0 255)]
    (euclidian_distance (fun p q : Int => Real.sqrt ((p : ℝ) ^ 2 + (q : ℝ) ^ 2)))
    (Image.new 4 6 (fun _ => Pixel.mk 9 9 9)) (by decide) 0 0 (by decide) (by decide)
    (Seed.mk 3 3 (Pixel.mk 255 0 0)) (by simp)
    (by
      intro t ht hle
      simp only [List.mem_cons, List.mem_singleton, List.not_mem_nil, or_false] at ht
      rcases ht with rfl | rfl
      · rfl
      · exact absurd hE (not_lt.mpr hle))
  obtain ⟨imgM, hrunM, hcolM⟩ := render_voronoi_owner
    [Seed.mk 3 3 (Pixel.mk 255 0 0), Seed.mk 0 5 (Pixel.mk 0 0 255)]
    manhattan_distance
    (Image.new 4 6 (fun _ => Pixel.mk 9 9 9)) (by decide) 0 0 (by decide) (by decide)
    (Seed.mk 0 5 (Pixel.mk 0 0 255)) (by simp)
    (by
      intro t ht hle
      simp only [List.mem_cons, List.mem_singleton, List.not_mem_nil, or_false] at ht
      rcases ht with rfl | rfl
      · exact absurd hM (not_lt.mpr hle)
      · rfl)
  exact ⟨hE, hM, imgE, imgM, hrunE, hrunM, hcolE, hcolM, by decide⟩

/-- C17: the tie-break of the code. For a non-empty seed list, a distance
function with totally ordered values and an image with `width * height`
slots, `render_voronoi` returns and every in-range cell holds the colour of
the seed at some position `i` of the list that attains the minimum distance
to the cell, while every seed at a later position is strictly farther: the
last seed of minimal distance wins. -/
theorem render_voronoi_last_minimum {α : Type} [LinearOrder α] (seeds : List Seed)
    (d : Seed → Seed → α) (hne : seeds ≠ []) (img : Image) (hwf : img.data.WF) :
    ∃ img1, img.render_voronoi seeds d = .ok img1 ∧
      ∀ x y, x < img.data.width → y < img.data.height →
        ∃ (i : Nat) (s : Seed), seeds[i]? = some s ∧ img1.data.elem x y = some s.color ∧
          (∀ t ∈ seeds, d s (Seed.mk x y (Pixel.mk 0 0 0)) ≤ d t (Seed.mk x y (Pixel.mk 0 0 0))) ∧
          (∀ (j : Nat) (t : Seed), i < j → seeds[j]? = some t →
            d s (Seed.mk x y (Pixel.mk 0 0 0)) < d t (Seed.mk x y (Pixel.mk 0 0 0))) :=
  render_voronoi_spec_min seeds d hne img hwf

/-- Witness for C17: three seeds on a 3x1 grid; the first two tie at the cell
`(1, 0)`. -/
theorem render_voronoi_last_minimum_witness :
    ∃ img1, (Image.new 3 1 (fun _ => Pixel.mk 9 9 9)).render_voronoi
        [Seed.mk 0 0 (Pixel.mk 255 0 0), Seed.mk 2 0 (Pixel.mk 0 0 255),
          Seed.mk 7 0 (Pixel.mk 0 255 0)] manhattan_distance = .ok img1 ∧
      ∀ x y, x < 3 → y < 1 →
        ∃ (i : Nat) (s : Seed),
          [Seed.mk 0 0 (Pixel.mk 255 0 0), Seed.mk 2 0 (Pixel.mk 0 0 255),
            Seed.mk 7 0 (Pixel.mk 0 255 0)][i]? = some s ∧
          img1.data.elem x y = some s.color ∧
          (∀ t ∈ [Seed.mk 0 0 (Pixel.mk 255 0 0), Seed.mk 2 0 (Pixel.mk 0 0 255),
              Seed.mk 7 0 (Pixel.mk 0 255 0)],
            manhattan_distance s (Seed.mk x y (Pixel.mk 0 0 0))
              ≤ manhattan_distance t (Seed.mk x y (Pixel.mk 0 0 0))) ∧
          (∀ (j : Nat) (t : Seed), i < j →
            [Seed.mk 0 0 (Pixel.mk 255 0 0), Seed.mk 2 0 (Pixel.mk 0 0 255),
              Seed.mk 7 0 (Pixel.mk 0 255 0)][j]? = some t →
            manhattan_distance s (Seed.mk x y (Pixel.mk 0 0 0))
              < manhattan_distance t (Seed.mk x y (Pixel.mk 0 0 0))) :=
  render_voronoi_last_minimum
    [Seed.mk 0 0 (Pixel.mk 255 0 0), Seed.mk 2 0 (Pixel.mk 0 0 255),
      Seed.mk 7 0 (Pixel.mk 0 255 0)] manhattan_distance (by simp)
    (Image.new 3 1 (fun _ => Pixel.mk 9 9 9)) (by decide)

/-! ## Seed generation -/

theorem generate_seeds_length (draws : Nat → Nat) (width height : Nat) (cg : Nat → Nat → Pixel)
    (n k : Nat) : (generate_seeds draws width height cg n k).length = n := by
  induction n generalizing k with
  | zero => rfl
  | succ m ih => simp [generate_seeds, ih]

theorem generate_seeds_get (draws : Nat → Nat) (width height : Nat) (cg : Nat → Nat → Pixel)
    (n k i : Nat) (hi : i < n) :
    (generate_seeds draws width height cg n k)[i]?
      = some (Seed.mk (draws (k + 2 * i) % width) (draws (k + 2 * i + 1) % height)
          (cg (draws (k + 2 * i) % width) (draws (k + 2 * i + 1) % height))) := by
  induction n generalizing k i with
  | zero => exact absurd hi (Nat.not_lt_zero _)
  | succ m ih =>
    cases i with
    | zero => simp [generate_seeds]
    | succ j =>
      simp only [generate_seeds, List.getElem?_cons_succ]
      rw [ih (k + 2) j (by omega)]
      have e : k + 2 + 2 * j = k + 2 * (j + 1) := by ring
      rw [e]

/-- C16: seed generation. For `width > 0` and `height > 0`, any colour
function and any sequence of values of `rand()`, `gen_random_seeds` returns
exactly `count` seeds; each has `x < width`, `y < height` and the colour
`cg(x, y)` of its own position; the `i`-th seed takes `x` from draw `2i` and
`y` from draw `2i + 1` after the `k` calls already made; and two random
sequences that agree on the draws consumed give the same list. -/
theorem gen_random_seeds_spec (draws : Nat → Nat) (k count width height : Nat)
    (cg : Nat → Nat → Pixel) (hw : 0 < width) (hh : 0 < height) :
    (gen_random_seeds draws k count width height cg).length = count ∧
    (∀ s ∈ gen_random_seeds draws k count width height cg,
      s.x < width ∧ s.y < height ∧ s.color = cg s.x s.y) ∧
    (∀ i, i < count →
      (gen_random_seeds draws k count width height cg)[i]?
        = some (Seed.mk (draws (k + 2 * i) % width) (draws (k + 2 * i + 1) % height)
            (cg (draws (k + 2 * i) % width) (draws (k + 2 * i + 1) % height)))) ∧
    (∀ draws2 : Nat → Nat, (∀ n, k ≤ n → n < k + 2 * count → draws2 n = draws n) →
      gen_random_seeds draws2 k count width height cg
        = gen_random_seeds draws k count width height cg) := by
  unfold gen_random_seeds
  refine ⟨generate_seeds_length _ _ _ _ _ _, ?_, ?_, ?_⟩
  · intro s hs
    obtain ⟨i, hi⟩ := List.mem_iff_getElem?.mp hs
    have hlt : i < count := by
      obtain ⟨h, _⟩ := List.getElem?_eq_some.mp hi
      rw [generate_seeds_length] at h
      exact h
    rw [generate_seeds_get draws width height cg count k i hlt] at hi
    have := Option.some.inj hi
    subst this
    exact ⟨Nat.mod_lt _ hw, Nat.mod_lt _ hh, rfl⟩
  · intro i hi
    exact generate_seeds_get draws width height cg count k i hi
  · intro draws2 hagree
    apply List.ext_getElem?
    intro i
    by_cases hi : i < count
    · rw [generate_seeds_get draws2 width height cg count k i hi,
        generate_seeds_get draws width height cg count k i hi,
        hagree (k + 2 * i) (by omega) (by omega),
        hagree (k + 2 * i + 1) (by omega) (by omega)]
    · rw [List.getElem?_eq_none (by rw [generate_seeds_length]; omega),
        List.getElem?_eq_none (by rw [generate_seeds_length]; omega)]

/-- Witness for C16: three seeds on a 5x4 grid from the draws `7 n + 3`. -/
theorem gen_random_seeds_spec_witness :
    (gen_random_seeds (fun n => 7 * n + 3) 0 3 5 4
        (fun x y => Pixel.mk (x : Int) (y : Int) 0)).length = 3 ∧
    gen_random_seeds (fun n => 7 * n + 3) 0 3 5 4 (fun x y => Pixel.mk (x : Int) (y : Int) 0)
      = [Seed.mk 3 2 (Pixel.mk 3 2 0), Seed.mk 2 0 (Pixel.mk 2 0 0),
          Seed.mk 1 2 (Pixel.mk 1 2 0)] :=
  ⟨(gen_random_seeds_spec (fun n => 7 * n + 3) 0 3 5 4
      (fun x y => Pixel.mk (x : Int) (y : Int) 0) (by decide) (by decide)).1, by decide⟩

/-! ## Gradient colours -/

theorem lerp_between (a b : Int) (t : ℚ) (h0 : 0 ≤ t) (h1 : t ≤ 1) :
    ((min a b : Int) : ℚ) ≤ lerp a b t ∧ lerp a b t ≤ ((max a b : Int) : ℚ) := by
  unfold lerp
  rcases le_total a b with h | h
  · rw [min_eq_left h, max_eq_right h]
    have hab : (0 : ℚ) ≤ (b : ℚ) - (a : ℚ) := by
      have : (a : ℚ) ≤ (b : ℚ) := by exact_mod_cast h
      linarith
    constructor
    · nlinarith [mul_nonneg h0 hab]
    · nlinarith [mul_nonneg (sub_nonneg.mpr h1) hab]
  · rw [min_eq_right h, max_eq_left h]
    have hab : (0 : ℚ) ≤ (a : ℚ) - (b : ℚ) := by
      have : (b : ℚ) ≤ (a : ℚ) := by exact_mod_cast h
      linarith
    constructor
    · nlinarith [mul_nonneg (sub_nonneg.mpr h1) hab]
    · nlinarith [mul_nonneg h0 hab]

theorem double_to_int_between (lo hi : Int) (q : ℚ) (h1 : (lo : ℚ) ≤ q) (h2 : q ≤ (hi : ℚ)) :
    lo ≤ double_to_int q ∧ double_to_int q ≤ hi := by
  unfold double_to_int
  split_ifs with h
  · refine ⟨Int.le_floor.mpr h1, ?_⟩
    have : ((⌊q⌋ : Int) : ℚ) ≤ (hi : ℚ) := le_trans (Int.floor_le q) h2
    exact_mod_cast this
  · refine ⟨?_, Int.ceil_le.mpr h2⟩
    have : (lo : ℚ) ≤ ((⌈q⌉ : Int) : ℚ) := le_trans h1 (Int.le_ceil q)
    exact_mod_cast this

theorem lerp_channel (a b : Int) (n m : Nat) (h : n < m) :
    min a b ≤ double_to_int (lerp a b ((n : ℚ) / (m : ℚ))) ∧
      double_to_int (lerp a b ((n : ℚ) / (m : ℚ))) ≤ max a b := by
  have hm : (0 : ℚ) < (m : ℚ) := by
    have : 0 < m := by omega
    exact_mod_cast this
  have h0 : (0 : ℚ) ≤ (n : ℚ) / (m : ℚ) := by positivity
  have h1 : (n : ℚ) / (m : ℚ) ≤ 1 := by
    rw [div_le_one hm]
    exact_mod_cast h.le
  obtain ⟨hlo, hhi⟩ := lerp_between a b _ h0 h1
  exact double_to_int_between _ _ _ hlo hhi

theorem lerp_channel_zero (a b : Int) (m : Nat) :
    double_to_int (lerp a b (((0 : Nat) : ℚ) / (m : ℚ))) = a := by
  unfold lerp double_to_int
  simp only [Nat.cast_zero, zero_div, zero_mul, add_zero]
  split_ifs
  · exact Int.floor_intCast a
  · exact Int.ceil_intCast a

/-- C18: gradient colours stay in range. For `begin` and `end` pixels with
channels in `[0, 255]`, every `x` and every `y < HEIGHT`, each channel of
`make_cg_vertical_gradient(begin, end)(x, y)` lies between the corresponding
channels of `begin` and `end`, hence in `[0, 255]`, and at `y = 0` the pixel
is `begin`; likewise `make_cg_horizontal_gradient` for every `x < WIDTH` and
every `y`. The `double` arithmetic is read as exact. -/
theorem gradient_channels_in_range (b e : Pixel)
    (hb : (0 ≤ b.red ∧ b.red ≤ 255) ∧ (0 ≤ b.green ∧ b.green ≤ 255) ∧
      (0 ≤ b.blue ∧ b.blue ≤ 255))
    (he : (0 ≤ e.red ∧ e.red ≤ 255) ∧ (0 ≤ e.green ∧ e.green ≤ 255) ∧
      (0 ≤ e.blue ∧ e.blue ≤ 255)) (x y : Nat) :
    (y < HEIGHT →
      (min b.red e.red ≤ (make_cg_vertical_gradient b e x y).red ∧
        (make_cg_vertical_gradient b e x y).red ≤ max b.red e.red ∧
        0 ≤ (make_cg_vertical_gradient b e x y).red ∧
        (make_cg_vertical_gradient b e x y).red ≤ 255) ∧
      (min b.green e.green ≤ (make_cg_vertical_gradient b e x y).green ∧
        (make_cg_vertical_gradient b e x y).green ≤ max b.green e.green ∧
        0 ≤ (make_cg_vertical_gradient b e x y).green ∧
        (make_cg_vertical_gradient b e x y).green ≤ 255) ∧
      (min b.blue e.blue ≤ (make_cg_vertical_gradient b e x y).blue ∧
        (make_cg_vertical_gradient b e x y).blue ≤ max b.blue e.blue ∧
        0 ≤ (make_cg_vertical_gradient b e x y).blue ∧
        (make_cg_vertical_gradient b e x y).blue ≤ 255)) ∧
    make_cg_vertical_gradient b e x 0 = b ∧
    (x < WIDTH →
      (min b.red e.red ≤ (make_cg_horizontal_gradient b e x y).red ∧
        (make_cg_horizontal_gradient b e x y).red ≤ max b.red e.red ∧
        0 ≤ (make_cg_horizontal_gradient b e x y).red ∧
        (make_cg_horizontal_gradient b e x y).red ≤ 255) ∧
      (min b.green e.green ≤ (make_cg_horizontal_gradient b e x y).green ∧
        (make_cg_horizontal_gradient b e x y).green ≤ max b.green e.green ∧
        0 ≤ (make_cg_horizontal_gradient b e x y).green ∧
        (make_cg_horizontal_gradient b e x y).green ≤ 255) ∧
      (min b.blue e.blue ≤ (make_cg_horizontal_gradient b e x y).blue ∧
        (make_cg_horizontal_gradient b e x y).blue ≤ max b.blue e.blue ∧
        0 ≤ (make_cg_horizontal_gradient b e x y).blue ∧
        (make_cg_horizontal_gradient b e x y).blue ≤ 255)) ∧
    make_cg_horizontal_gradient b e 0 y = b := by
  have key : ∀ (p q : Int) (n m : Nat), n < m → (0 ≤ p ∧ p ≤ 255) → (0 ≤ q ∧ q ≤ 255) →
      min p q ≤ double_to_int (lerp p q ((n : ℚ) / (m : ℚ))) ∧
      double_to_int (lerp p q ((n : ℚ) / (m : ℚ))) ≤ max p q ∧
      0 ≤ double_to_int (lerp p q ((n : ℚ) / (m : ℚ))) ∧
      double_to_int (lerp p q ((n : ℚ) / (m : ℚ))) ≤ 255 := by
    intro p q n m hnm hp hq
    obtain ⟨h1, h2⟩ := lerp_channel p q n m hnm
    exact ⟨h1, h2, le_trans (le_min hp.1 hq.1) h1, le_trans h2 (max_le hp.2 hq.2)⟩
  refine ⟨?_, ?_, ?_, ?_⟩
  · intro hy
    exact ⟨key _ _ y HEIGHT hy hb.1 he.1, key _ _ y HEIGHT hy hb.2.1 he.2.1,
      key _ _ y HEIGHT hy hb.2.2 he.2.2⟩
  · unfold make_cg_vertical_gradient lerp_pixels
    simp only [lerp_channel_zero]
  · intro hx
    exact ⟨key _ _ x WIDTH hx hb.1 he.1, key _ _ x WIDTH hx hb.2.1 he.2.1,
      key _ _ x WIDTH hx hb.2.2 he.2.2⟩
  · unfold make_cg_horizontal_gradient lerp_pixels
    simp only [lerp_channel_zero]

/-- Witness for C18: the gradient of `main`, from black to white, at `y = 300`
and at `x = 200`. -/
theorem gradient_channels_in_range_witness :
    (0 ≤ (make_cg_vertical_gradient (Pixel.mk 0 0 0) (Pixel.mk 255 255 255) 5 300).red ∧
      (make_cg_vertical_gradient (Pixel.mk 0 0 0) (Pixel.mk 255 255 255) 5 300).red ≤ 255) ∧
    make_cg_vertical_gradient (Pixel.mk 0 0 0) (Pixel.mk 255 255 255) 5 0 = Pixel.mk 0 0 0 ∧
    (0 ≤ (make_cg_horizontal_gradient (Pixel.mk 0 0 0) (Pixel.mk 255 255 255) 200 7).blue ∧
      (make_cg_horizontal_gradient (Pixel.mk 0 0 0) (Pixel.mk 255 255 255) 200 7).blue ≤ 255) :=
  ⟨⟨((gradient_channels_in_range (Pixel.mk 0 0 0) (Pixel.mk 255 255 255)
        (by decide) (by decide) 5 300).1 (by decide)).1.2.2.1,
      ((gradient_channels_in_range (Pixel.mk 0 0 0) (Pixel.mk 255 255 255)
        (by decide) (by decide) 5 300).1 (by decide)).1.2.2.2⟩,
    (gradient_channels_in_range (Pixel.mk 0 0 0) (Pixel.mk 255 255 255)
        (by decide) (by decide) 5 300).2.1,
    ⟨((gradient_channels_in_range (Pixel.mk 0 0 0) (Pixel.mk 255 255 255)
        (by decide) (by decide) 200 7).2.2.1 (by decide)).2.2.2.2.1,
      ((gradient_channels_in_range (Pixel.mk 0 0 0) (Pixel.mk 255 255 255)
        (by decide) (by decide) 200 7).2.2.1 (by decide)).2.2.2.2.2⟩⟩

end Voronoi
